import Mathlib

/-! Mod-archive installation pipeline (`installationmanager.cpp`)

A shallow embedding of the directory tree builder (`createFilesTree`), the
archive structure classifier (`isSimpleArchiveTopLayer`,
`getSimpleArchiveBase`), the installer chain dispatcher (`install`,
`installArchive`), the backup names (`generateBackupName`), the overwrite
resolution (`testOverwrite`), the extraction of a subset of files
(`extractFiles`), the update of `meta.ini` at the end of `doInstall` and
the mapping of the tree back to the archive (`mapToArchive`) of
`InstallationManager`, followed by the properties established about them.

Strings (`QString`, `std::wstring`) are lists of characters; the archive file
list is a list of `FileData`, an entry's index being its position.
-/

/-! ## Data model -/

/-- A `QString`: a sequence of characters. -/
abbrev QString := List Char

/-- One entry of the archive's flat file list (`FileData`): the full path
relative to the archive root, the directory flag, the skip flag and the
output file name. -/
structure FileData where
  fileName : QString
  isDirectory : Bool
  skip : Bool
  outputFileName : QString
deriving DecidableEq

/-- The payload of a leaf of the tree (`FileTreeInformation`): the file name and
the index of the archive entry. -/
structure FileTreeInformation where
  name : QString
  index : Nat
deriving DecidableEq

/-- The payload of a directory node (`DirectoryTreeInformation`): the directory
name and the index of the archive entry that listed it, `-1` when the
directory only occurs inside the path of another entry. -/
structure DirectoryTreeInformation where
  name : QString
  index : Int
deriving DecidableEq

/-- Modelled from the spec: the class `DirectoryTree` is declared outside this
file. A directory node has its data (a name and the index of the entry that
listed it), an ordered collection of child directory nodes and an ordered
collection of leafs; `addNode(.., false)` and `addLeaf` put the new child
at the end of its collection. -/
inductive Node where
  | mk (data : DirectoryTreeInformation) (nodes : List Node)
      (leafs : List FileTreeInformation) : Node

namespace Node

/-- The data of a node (`getData`). -/
def getData : Node → DirectoryTreeInformation
  | mk d _ _ => d

/-- The child directory nodes (`nodesBegin` .. `nodesEnd`). -/
def nodes : Node → List Node
  | mk _ ns _ => ns

/-- The leafs (`leafsBegin` .. `leafsEnd`). -/
def leafs : Node → List FileTreeInformation
  | mk _ _ ls => ls

/-- The number of child directory nodes (`numNodes`). -/
def numNodes (n : Node) : Nat := n.nodes.length

/-- The number of leafs (`numLeafs`). -/
def numLeafs (n : Node) : Nat := n.leafs.length

/-- The name of a directory node. -/
def name (n : Node) : QString := n.getData.name

mutual
/-- Decidable equality of nodes. -/
def decEq : (a b : Node) → Decidable (a = b)
  | mk d1 n1 l1, mk d2 n2 l2 =>
    if hd : d1 = d2 then
      if hl : l1 = l2 then
        match decEqList n1 n2 with
        | isTrue hn => isTrue (by rw [hd, hl, hn])
        | isFalse hn => isFalse (fun h => hn (by cases h; rfl))
      else isFalse (fun h => hl (by cases h; rfl))
    else isFalse (fun h => hd (by cases h; rfl))
/-- Decidable equality of lists of nodes. -/
def decEqList : (a b : List Node) → Decidable (a = b)
  | [], [] => isTrue rfl
  | [], _ :: _ => isFalse (by simp)
  | _ :: _, [] => isFalse (by simp)
  | a :: as, b :: bs =>
    match decEq a b with
    | isTrue h1 =>
      match decEqList as bs with
      | isTrue h2 => isTrue (by rw [h1, h2])
      | isFalse h2 => isFalse (fun h => h2 (by cases h; rfl))
    | isFalse h1 => isFalse (fun h => h1 (by cases h; rfl))
end

instance : DecidableEq Node := decEq

/-- The names of all siblings below a node: the names of its child directory
nodes followed by the names of its leafs. -/
def childNames (n : Node) : List QString :=
  n.nodes.map Node.name ++ n.leafs.map FileTreeInformation.name

/-- The relation `Within n t`: the node `n` is `t` itself or one of the directory
nodes below `t`. -/
inductive Within : Node → Node → Prop
  | here (t : Node) : Within t t
  | inside {n c t : Node} : c ∈ t.nodes → Within n c → Within n t

/-- The statement `All P pre t`: the node `t`, whose path from the root is `pre`,
and every directory node below it satisfy `P` together with their paths. -/
inductive All (P : List QString → Node → Prop) : List QString → Node → Prop
  | mk {pre : List QString} {d : DirectoryTreeInformation} {nodes : List Node}
      {leafs : List FileTreeInformation} :
      P pre (Node.mk d nodes leafs) →
      (∀ c ∈ nodes, All P (pre ++ [c.name]) c) → All P pre (Node.mk d nodes leafs)

/-- The first child directory node carrying the given name, the node a walk
along a path moves to. -/
def child (n : Node) (name : QString) : Option Node :=
  n.nodes.find? (fun c => decide (c.name = name))

/-- Following path segments from a node through child directory nodes down to a
leaf: every segment but the last names a child directory node, the last one
is the name of a leaf of the directory reached, and that leaf carries the
index `i`. -/
def reachesLeaf : Node → List QString → Nat → Bool
  | _, [], _ => false
  | n, [c], i => decide ((⟨c, i⟩ : FileTreeInformation) ∈ n.leafs)
  | n, c :: c2 :: rest, i =>
    match n.child c with
    | none => false
    | some m => reachesLeaf m (c2 :: rest) i

end Node

/-! ## Directory tree builder -/

/-- The components of a path, `QString::split` with its default of keeping empty
parts: the empty string gives one empty component. -/
def split (sep : Char) : QString → List QString
  | [] => [[]]
  | c :: cs =>
    if c = sep then [] :: split sep cs
    else
      match split sep cs with
      | [] => [[c]]
      | s :: rest => (c :: s) :: rest

/-- The path components of an archive entry, `fileName.split("\\")`. -/
def components (fd : FileData) : List QString := split '\\' fd.fileName

/-- The components the builder processes: the loop over the components of a path
stops at the first empty one. -/
def processed (cs : List QString) : List QString := cs.takeWhile (fun c => decide (c ≠ []))

/-- The search of `createFilesTree` for an existing directory: the first child
directory node carrying the name becomes the current node, so that the rest of
the path (`f`) is processed below it; `none` when no child directory node has
the name. -/
def descendInto (name : QString) (f : Node → Node) : List Node → Option (List Node)
  | [] => none
  | n :: rest =>
    if n.name = name then some (f n :: rest)
    else
      match descendInto name f rest with
      | none => none
      | some rest2 => some (n :: rest2)

/-- The body of the outer loop of `createFilesTree` for entry `i`: the components
are processed from the current node on. An empty component ends the entry. A
component found among the child directory nodes is descended into; a missing
one is created, as a leaf when it is the last component of a file, as a
directory node tagged with the entry when it is the last component of a
directory, and as an untagged directory node otherwise. `addNode(.., false)`
and `addLeaf` append to the children. -/
def addPath (i : Nat) (isDir : Bool) : List QString → Node → Node
  | [], node => node
  | c :: rest, Node.mk d nodes leafs =>
    if c = [] then Node.mk d nodes leafs
    else
      match descendInto c (addPath i isDir rest) nodes with
      | some nodes2 => Node.mk d nodes2 leafs
      | none =>
        if rest = [] then
          if isDir then Node.mk d (nodes ++ [Node.mk ⟨c, (i : Int)⟩ [] []]) leafs
          else Node.mk d nodes (leafs ++ [⟨c, i⟩])
        else
          Node.mk d (nodes ++ [addPath i isDir rest (Node.mk ⟨c, -1⟩ [] [])]) leafs

/-- The outer loop of `createFilesTree` from entry number `i` on. -/
def buildFrom : Nat → List FileData → Node → Node
  | _, [], t => t
  | i, fd :: rest, t => buildFrom (i + 1) rest (addPath i fd.isDirectory (components fd) t)

/-- The root of a new `DirectoryTree`: an empty name and no children. -/
def emptyTree : Node := Node.mk ⟨[], -1⟩ [] []

/-- The tree `createFilesTree` builds for the archive's file list. -/
def createFilesTree (data : List FileData) : Node := buildFrom 0 data emptyTree

/-- An archive entry for a file, in its initial state. -/
def fileEntry (path : String) : FileData := ⟨path.toList, false, true, []⟩

/-- An archive entry for a directory, in its initial state. -/
def dirEntry (path : String) : FileData := ⟨path.toList, true, true, []⟩

/-! ## Archive structure classifier -/

/-- The vocabulary of `InstallationTester`, which lives outside this file: the
recognised top-level directory names (plain and BAIN style) and the
recognised top-level file suffixes. -/
structure InstallationTester where
  isTopLevelDirectory : QString → Bool
  isTopLevelDirectoryBain : QString → Bool
  isTopLevelSuffix : QString → Bool

/-- The test `isSimpleArchiveTopLayer`: some child directory node has a
recognised top-level name, or some leaf has a recognised top-level suffix. -/
def isSimpleArchiveTopLayer (tester : InstallationTester) (node : Node) (bainStyle : Bool) : Bool :=
  if node.nodes.any (fun c =>
      (bainStyle && tester.isTopLevelDirectoryBain c.name) ||
      (!bainStyle && tester.isTopLevelDirectory c.name)) then true
  else if node.leafs.any (fun l => tester.isTopLevelSuffix l.name) then true
  else false

/-- The loop of `getSimpleArchiveBase`: a node with a sensible top layer is
returned; a node without leafs and with exactly one child directory node is
replaced by that child; any other node gives `NULL`. -/
def getSimpleArchiveBase (tester : InstallationTester) : Node → Option Node
  | Node.mk d nodes leafs =>
    if isSimpleArchiveTopLayer tester (Node.mk d nodes leafs) false then some (Node.mk d nodes leafs)
    else if leafs.length = 0 ∧ nodes.length = 1 then
      match nodes with
      | c :: _ => getSimpleArchiveBase tester c
      | [] => none
    else none

/-- The descent of `getSimpleArchiveBase` through wrapper directories:
`WrapperDescent tester t n` when the loop started at `t` reaches `n` as its
current node, each node left behind having no sensible top layer, no leafs and
`n`'s ancestor as its only child directory node. -/
inductive WrapperDescent (tester : InstallationTester) : Node → Node → Prop
  | start (t : Node) : WrapperDescent tester t t
  | step {t c n : Node} : isSimpleArchiveTopLayer tester t false = false →
      t.numLeafs = 0 → t.nodes = [c] → WrapperDescent tester c n → WrapperDescent tester t n

/-- A tester that recognises the directory name `data` and the file suffix
`.esp`. -/
def dataTester : InstallationTester where
  isTopLevelDirectory := fun n => decide (n = "data".toList)
  isTopLevelDirectoryBain := fun n => decide (n = "data".toList)
  isTopLevelSuffix := fun n => "esp".toList.isSuffixOf n

/-! ## Installer chain dispatcher -/

/-- The result of an installer (`IPluginInstaller::EInstallResult`). -/
inductive EInstallResult where
  | RESULT_SUCCESS
  | RESULT_FAILED
  | RESULT_CANCELED
  | RESULT_MANUALREQUESTED
  | RESULT_NOTATTEMPTED
deriving DecidableEq

/-- Which of the two interfaces an installer implements, the outcome of the two
`dynamic_cast`s of the dispatcher. -/
inductive InstallerKind where
  | simple
  | custom
deriving DecidableEq

/-- What a call of an installer's `install` does: it returns a result or throws
an `IncompatibilityException`. -/
inductive InstallOutcome where
  | returns (r : EInstallResult)
  | throwsIncompatibility
deriving DecidableEq

/-- An installer plugin as the dispatcher sees it during one run: its priority
and flags, and its answers to the calls the dispatcher makes on it. -/
structure IPluginInstaller where
  name : QString
  priority : Int
  isActive : Bool
  isManualInstaller : Bool
  kind : InstallerKind
  /-- The answer of `isArchiveSupported(*filesTree)`. -/
  isArchiveSupported : Bool
  /-- The answer of `IPluginInstallerCustom::isArchiveSupported(fileName)`. -/
  isArchiveSupportedFile : Bool
  /-- Whether `supportedExtensions()` holds the suffix of the file. -/
  supportsSuffix : Bool
  /-- The outcome of the call of `install`. -/
  installOutcome : InstallOutcome
deriving DecidableEq

/-- What a run of `install` meets outside the installers: whether the suffix of
the file is among the supported extensions, the file list of the archive when
it could be opened, and how `doInstall` ends (`none`: it throws
`std::runtime_error`). -/
structure Session where
  formatSupported : Bool
  archive : Option (List FileData)
  doInstall : Option Bool

/-- The tree the installers work on: `createFilesTree()` when the archive
opened, `NULL` otherwise. -/
def Session.filesTree (s : Session) : Option Node := s.archive.map createFilesTree

/-- The comparison handed to `std::sort`. -/
def higherPriority (LHS RHS : IPluginInstaller) : Bool := decide (LHS.priority > RHS.priority)

/-- Insertion of an installer into a sorted list, before the first installer
that does not come before it. -/
def insertInstaller (x : IPluginInstaller) : List IPluginInstaller → List IPluginInstaller
  | [] => [x]
  | y :: ys => if higherPriority y x then y :: insertInstaller x ys else x :: y :: ys

/-- The call `std::sort(m_Installers.begin(), m_Installers.end(), ..)`, as a
sort by insertion under the comparison of the code; the order among installers
of equal priority is the choice of the library. -/
def sortInstallers : List IPluginInstaller → List IPluginInstaller
  | [] => []
  | x :: xs => insertInstaller x (sortInstallers xs)

/-- Whether the dispatcher calls `install` on the installer: a simple installer
needs the tree and supports it; a custom installer supports the tree, or the
file when there is no tree, and lists the suffix of the file. -/
def isInvoked (s : Session) (installer : IPluginInstaller) : Bool :=
  match installer.kind with
  | InstallerKind.simple => s.filesTree.isSome && installer.isArchiveSupported
  | InstallerKind.custom =>
    ((s.filesTree.isSome && installer.isArchiveSupported) ||
      (s.filesTree.isNone && installer.isArchiveSupportedFile)) && installer.supportsSuffix

/-- The `try` block of the loop of `install` for one installer: the value of
`installResult` after it, `none` when an exception of `doInstall` leaves
the function. A thrown `IncompatibilityException` is caught and leaves
`installResult` as it was. -/
def tryInstaller (s : Session) (installer : IPluginInstaller) (installResult : EInstallResult) :
    Option EInstallResult :=
  if isInvoked s installer then
    match installer.installOutcome with
    | InstallOutcome.throwsIncompatibility => some installResult
    | InstallOutcome.returns r =>
      match installer.kind with
      | InstallerKind.simple =>
        if r = EInstallResult.RESULT_SUCCESS then
          match s.doInstall with
          | none => none
          | some true => some EInstallResult.RESULT_SUCCESS
          | some false => some EInstallResult.RESULT_FAILED
        else some r
      | InstallerKind.custom => some r
  else some installResult

/-- A run of `install`: the value returned (`none` when an exception leaves
the function) and the installers whose `install` was called, in call order.
The guessed mod name and the flag `hasIniTweaks` are left out. -/
structure InstallRun where
  result : Option Bool
  calls : List IPluginInstaller
deriving DecidableEq

/-- The `foreach` loop of `install` over the sorted installers, from the current
value of `installResult` on. -/
def installLoop (s : Session) : List IPluginInstaller → EInstallResult → InstallRun
  | [], _ => ⟨some false, []⟩
  | installer :: rest, installResult =>
    if !installer.isActive then installLoop s rest installResult
    else if installResult = EInstallResult.RESULT_MANUALREQUESTED && !installer.isManualInstaller then
      installLoop s rest installResult
    else
      let called := if isInvoked s installer then [installer] else []
      match tryInstaller s installer installResult with
      | none => ⟨none, called⟩
      | some EInstallResult.RESULT_CANCELED => ⟨some false, called⟩
      | some EInstallResult.RESULT_FAILED => ⟨some false, called⟩
      | some EInstallResult.RESULT_SUCCESS => ⟨some s.filesTree.isSome, called⟩
      | some r => ⟨(installLoop s rest r).result, called ++ (installLoop s rest r).calls⟩

/-- The function `install`: an unsupported file format is refused before any
installer is looked at; otherwise the installers are sorted and the loop runs
with `installResult` starting as `RESULT_NOTATTEMPTED`. -/
def install (s : Session) (m_Installers : List IPluginInstaller) : InstallRun :=
  if !s.formatSupported then ⟨some false, []⟩
  else installLoop s (sortInstallers m_Installers) EInstallResult.RESULT_NOTATTEMPTED

/-- The function `installArchive`: `RESULT_SUCCESS` when `install` returns
true and `RESULT_FAILED` otherwise. -/
def installArchive (s : Session) (m_Installers : List IPluginInstaller) : Option EInstallResult :=
  match (install s m_Installers).result with
  | none => none
  | some true => some EInstallResult.RESULT_SUCCESS
  | some false => some EInstallResult.RESULT_FAILED

/-- An active simple installer that supports every archive. -/
def simpleInstaller (name : String) (priority : Int) (isManual : Bool) (outcome : InstallOutcome) :
    IPluginInstaller :=
  ⟨name.toList, priority, true, isManual, InstallerKind.simple, true, false, false, outcome⟩

/-- An active custom installer that supports every archive, opened or not. -/
def customInstaller (name : String) (priority : Int) (outcome : InstallOutcome) :
    IPluginInstaller :=
  ⟨name.toList, priority, true, false, InstallerKind.custom, true, true, true, outcome⟩

/-- An installer declines when its `install` is called and returns
`RESULT_NOTATTEMPTED`. -/
def declines (s : Session) (installer : IPluginInstaller) : Bool :=
  isInvoked s installer &&
    decide (installer.installOutcome = InstallOutcome.returns EInstallResult.RESULT_NOTATTEMPTED)

/-- A session in which the archive opened and holds the single file `a.esp`. -/
def openSession : Session := ⟨true, some [fileEntry "a.esp"], some true⟩

/-- A session in which the archive could not be opened. -/
def closedSession : Session := ⟨true, none, some true⟩

/-- Every child directory node of `n` carries the first components of an entry
of `E`: a directory node is only ever created for a path some entry runs
through. -/
def DirsFrom (E : List FileData) (pre : List QString) (n : Node) : Prop :=
  ∀ c ∈ n.nodes, ∃ fd ∈ E, pre ++ [c.name] <+: processed (components fd)

/-- The siblings below `n` carry distinct names and every leaf of `n` is a file
entry of `E` whose components are the path of `n` followed by the name of the
leaf. -/
def LeafsFrom (E : List FileData) (pre : List QString) (n : Node) : Prop :=
  n.childNames.Nodup ∧
    ∀ l ∈ n.leafs, ∃ fd ∈ E, fd.isDirectory = false ∧ components fd = pre ++ [l.name]

/-- The condition under which a file entry cannot collide with a directory
created for a later entry: the components of the earlier entry, when it is a
file, are not the first components processed for the later one. -/
def noFileAbove (earlier later : FileData) : Prop :=
  earlier.isDirectory = false → ¬ components earlier <+: processed (components later)

/-- The first list of path segments is a segment-wise proper prefix of the
second one. -/
def properPrefix (a b : List QString) : Prop := a <+: b ∧ a ≠ b

instance (a b : List QString) : Decidable (properPrefix a b) := by
  unfold properPrefix
  exact inferInstance

/-- The condition on an earlier and a later entry of the file list under which
the earlier one, when it is a file, does not lie on the path of the later
one. -/
def noFileOnPath (earlier later : FileData) : Prop :=
  earlier.isDirectory = false → ¬ properPrefix (components earlier) (components later)

instance (earlier later : FileData) : Decidable (noFileOnPath earlier later) := by
  unfold noFileOnPath
  exact inferInstance

/-! ## Backup names -/

/-- The decimal form of an integer, `QString::number`. -/
def number (n : Int) : QString :=
  if n < 0 then '-' :: Nat.toDigits 10 n.natAbs else Nat.toDigits 10 n.natAbs

/-- The loop of `generateBackupName`: the index is counted up while the directory
`backupName + QString::number(idx)` exists. The directories that exist are
the members of `dirs`; `none` when the rounds allowed are used up. -/
def generateBackupNameLoop (dirs : List QString) (backupName : QString) :
    Nat → Nat → Option QString
  | 0, _ => none
  | fuel + 1, idx =>
    if backupName ++ number (idx : Int) ∈ dirs then
      generateBackupNameLoop dirs backupName fuel (idx + 1)
    else some (backupName ++ number (idx : Int))

/-- The function `generateBackupName` in a file system whose existing
directories are `dirs`. The loop is given one round more than there are
directories. -/
def generateBackupName (dirs : List QString) (directoryName : QString) : Option QString :=
  if directoryName ++ "_backup".toList ∈ dirs then
    generateBackupNameLoop dirs (directoryName ++ "_backup".toList) (dirs.length + 1) 2
  else some (directoryName ++ "_backup".toList)

/-! ## Metadata reconciliation -/

/-- The keys of `meta.ini` that `doInstall` writes; `none` when the settings
file does not contain the key. -/
structure MetaSettings where
  modid : Option Int
  version : Option QString
  newestVersion : Option QString
  category : Option QString
  installationFile : Option QString
deriving DecidableEq

/-- The update of `meta.ini` at the end of `doInstall`. The comparison
`versionGE a b` stands for `VersionInfo(a) >= VersionInfo(b)`; the class
`VersionInfo` is declared outside this file. -/
def updateSettings (versionGE : QString → QString → Bool) (settingsFile : MetaSettings)
    (modID : Int) (version newestVersion : QString) (categoryID : Int)
    (m_CurrentFile : QString) : MetaSettings :=
  let s1 : MetaSettings :=
    if modID ≠ 0 ∨ settingsFile.modid = none then { settingsFile with modid := some modID }
    else settingsFile
  let s2 : MetaSettings :=
    if s1.version = none ∨ (version ≠ [] ∧ versionGE version (s1.version.getD []) = true) then
      { s1 with version := some version }
    else s1
  let s3 : MetaSettings :=
    if newestVersion ≠ [] ∨ s2.newestVersion = none then
      { s2 with newestVersion := some newestVersion }
    else s2
  let s4 : MetaSettings :=
    if s3.category = none then { s3 with category := some (number categoryID) } else s3
  { s4 with installationFile := some m_CurrentFile }

/-- A comparison of versions for the examples: the versions are compared as
lists of characters. -/
def sampleVersionGE (a b : QString) : Bool := decide (¬ a < b)

/-! ## Extraction of a subset of files -/

/-- The function `canonicalize`: a leading slash or backslash is removed and
every slash becomes a backslash. -/
def canonicalize (name : QString) : QString :=
  let result := if name.head? = some '/' ∨ name.head? = some '\\' then name.drop 1 else name
  result.map (fun c => if c = '/' then '\\' else c)

/-- The test `files.contains(name, Qt::CaseInsensitive)`: some string of the
list equals the name, regardless of case. The comparison of two strings under
`Qt::CaseInsensitive` belongs to Qt and is the parameter `caseInsensitiveEq`;
nothing is assumed of it. -/
def containsIgnoreCase (caseInsensitiveEq : QString → QString → Bool)
    (files : List QString) (name : QString) : Bool :=
  files.any (fun f => caseInsensitiveEq f name)

/-- A comparison regardless of case for names of ASCII characters: the two
strings are equal once the letters `A` to `Z` have been put in lower case. On
such names it is the comparison under `Qt::CaseInsensitive`; it is used for
the examples only, whose names are all of ASCII characters. -/
def asciiCaseInsensitiveEq (a b : QString) : Bool :=
  decide (a.map Char.toLower = b.map Char.toLower)

/-- The function `wcsrchr`: the rest of the string from the last occurrence of
the character on, that character included; `none` (`NULL`) when the
character does not occur. -/
def wcsrchr : QString → Char → Option QString
  | [], _ => none
  | c :: cs, ch =>
    match wcsrchr cs ch with
    | some r => some r
    | none => if c = ch then some (c :: cs) else none

/-- The value of `baseName` in the loop of `extractFiles`: the rest of the
file name from its last backslash on, or from its last slash on when it has
no backslash. -/
def baseNameOf (fileName : QString) : Option QString :=
  match wcsrchr fileName '\\' with
  | some b => some b
  | none => wcsrchr fileName '/'

/-- The body of the loop of `extractFiles` for one entry: the entry after
the round and the path appended to the result, if one is. An entry whose name
is not requested is flagged to be skipped; a requested entry without a
backslash or slash is passed over as it is; any other requested entry gets its
output name, is flagged not to be skipped and gives a path in the temporary
directory. -/
def extractFilesStep (caseInsensitiveEq : QString → QString → Bool) (tempPath : QString)
    (files : List QString) (fd : FileData) : FileData × Option QString :=
  if containsIgnoreCase caseInsensitiveEq files fd.fileName then
    match baseNameOf fd.fileName with
    | none => (fd, none)
    | some baseName =>
      ({ fd with outputFileName := baseName, skip := false }, some (tempPath ++ '/' :: baseName))
  else ({ fd with skip := true }, none)

/-- The loop of `extractFiles` over the file list of the archive: the entries
after the loop and the paths collected, in the order of the entries. -/
def extractFilesLoop (caseInsensitiveEq : QString → QString → Bool) (tempPath : QString)
    (files : List QString) : List FileData → List FileData × List QString
  | [] => ([], [])
  | fd :: rest =>
    let step := extractFilesStep caseInsensitiveEq tempPath files fd
    let done := extractFilesLoop caseInsensitiveEq tempPath files rest
    match step.2 with
    | none => (step.1 :: done.1, done.2)
    | some path => (step.1 :: done.1, path :: done.2)

/-- A run of `extractFiles`: the file list with the flags as the loop left
them and the list returned, `none` when the extraction fails and
`std::runtime_error` is thrown. -/
structure ExtractRun where
  data : List FileData
  result : Option (List QString)
deriving DecidableEq

/-- The function `extractFiles`: the requested names are put in canonical
form, the loop sets the flags and collects the paths, and the archive is
extracted to the temporary directory `tempPath` (`QDir::tempPath()`);
`extractOk` tells whether that extraction succeeds, and `caseInsensitiveEq`
is the comparison of two strings under `Qt::CaseInsensitive`. -/
def extractFiles (caseInsensitiveEq : QString → QString → Bool) (tempPath : QString)
    (data : List FileData) (filesOrig : List QString) (extractOk : Bool) : ExtractRun :=
  let files := filesOrig.map canonicalize
  let done := extractFilesLoop caseInsensitiveEq tempPath files data
  if extractOk then ⟨done.1, some done.2⟩ else ⟨done.1, none⟩

/-- The file name has a backslash or a slash. -/
def hasSeparator (fileName : QString) : Bool :=
  decide ('\\' ∈ fileName) || decide ('/' ∈ fileName)

/-- The base file name of a path: what follows its last backslash, or its last
slash when it has no backslash. -/
def baseFileName (fileName : QString) : QString :=
  if '\\' ∈ fileName then (split '\\' fileName).getLast?.getD []
  else (split '/' fileName).getLast?.getD []

/-- The entry is requested: its full path equals, regardless of case, the
canonical form of one of the requested names; `caseInsensitiveEq` is the
comparison of two strings under `Qt::CaseInsensitive`. -/
def isRequested (caseInsensitiveEq : QString → QString → Bool) (filesOrig : List QString)
    (fd : FileData) : Bool :=
  containsIgnoreCase caseInsensitiveEq (filesOrig.map canonicalize) fd.fileName

/-- An archive entry for a file whose skip flag is cleared. -/
def selectedEntry (path : String) : FileData := ⟨path.toList, false, false, []⟩

/-! ## Overwrite resolution -/

/-- The action chosen in the `QueryOverwriteDialog`. -/
inductive OverwriteAction where
  | ACT_NONE
  | ACT_RENAME
  | ACT_REPLACE
  | ACT_MERGE
deriving DecidableEq

/-- What the user and the file system answer in one round of the loop of
`testOverwrite`: whether the dialog is accepted, whether a backup is asked
for, the action, whether `copyDir` succeeds, whether a new name is given
(`ok && !name.isEmpty()`), the mod name after `update` and
`ensureValidModName` (`none` when `ensureValidModName` returns false),
whether the first `mkdir` after the deletion succeeds and whether the
settings file can be opened for writing. -/
structure OverwriteRound where
  accepted : Bool
  backup : Bool
  action : OverwriteAction
  copyOk : Bool
  nameGiven : Bool
  validName : Option QString
  mkdirOk : Bool
  restoreOk : Bool
deriving DecidableEq

/-- An operation of `testOverwrite` as it is recorded in the order of the run:
the accepted dialog with its backup flag and action, the copy of a directory
with its outcome, the recursive deletion of a directory, the creation of a
directory and the writing of a settings file. -/
inductive FsOp where
  | query (backup : Bool) (action : OverwriteAction)
  | copyDir (source target : QString) (ok : Bool)
  | shellDelete (dir : QString)
  | mkdir (dir : QString)
  | writeSettings (file : QString)
deriving DecidableEq

/-- The operations that delete, create or write: everything but the dialog and
the copy to the backup directory. -/
def FsOp.isDestructive : FsOp → Bool
  | FsOp.shellDelete _ => true
  | FsOp.mkdir _ => true
  | FsOp.writeSettings _ => true
  | _ => false

/-- A run of `testOverwrite`: the value returned (`none` while the loop still
waits for the dialog) and the operations performed, in order. -/
structure OverwriteRun where
  result : Option Bool
  ops : List FsOp
deriving DecidableEq

/-- The function `QDir::fromNativeSeparators`: every backslash becomes a
slash. -/
def fromNativeSeparators (path : QString) : QString :=
  path.map (fun c => if c = '\\' then '/' else c)

/-- The target directory of a mod: the mods directory, a backslash and the mod
name, with slashes as separators. -/
def targetDirectoryOf (m_ModsDirectory modName : QString) : QString :=
  fromNativeSeparators (m_ModsDirectory ++ '\\' :: modName)

/-- The operations of the branch `ACT_REPLACE`: the directory is deleted with
its content and created again, a second time when the first `mkdir` fails,
and the saved settings are written back when the file can be opened. -/
def replaceOps (r : OverwriteRound) (targetDirectory : QString) : List FsOp :=
  FsOp.shellDelete targetDirectory ::
    ((if r.mkdirOk then [FsOp.mkdir targetDirectory]
      else [FsOp.mkdir targetDirectory, FsOp.mkdir targetDirectory]) ++
     (if r.restoreOk then [FsOp.writeSettings (targetDirectory ++ "/meta.ini".toList)] else []))

/-- The part of a round of the loop of `testOverwrite` that follows the backup:
the action of the dialog is carried out; `loop` is the rest of the loop. -/
def overwriteAction (m_ModsDirectory : QString) (loop : List QString → QString → OverwriteRun)
    (r : OverwriteRound) (dirs : List QString) (targetDirectory : QString) : OverwriteRun :=
  match r.action with
  | OverwriteAction.ACT_RENAME =>
    if r.nameGiven then
      match r.validName with
      | none => ⟨some false, []⟩
      | some modName => loop dirs (targetDirectoryOf m_ModsDirectory modName)
    else loop dirs targetDirectory
  | OverwriteAction.ACT_REPLACE => ⟨some true, replaceOps r targetDirectory⟩
  | OverwriteAction.ACT_MERGE => ⟨some true, []⟩
  | OverwriteAction.ACT_NONE => loop dirs targetDirectory

/-- The loop of `testOverwrite` over the answers of the rounds to come, in a
file system whose existing directories are `dirs`. While the target
directory exists the dialog is shown; a backup that is asked for is copied
first and a failed copy ends the run; then the action is carried out. When the
target directory does not exist it is created. -/
def testOverwriteLoop (m_ModsDirectory : QString) :
    List OverwriteRound → List QString → QString → OverwriteRun
  | [], dirs, targetDirectory =>
    if targetDirectory ∈ dirs then ⟨none, []⟩ else ⟨some true, [FsOp.mkdir targetDirectory]⟩
  | r :: rest, dirs, targetDirectory =>
    if targetDirectory ∈ dirs then
      if r.accepted then
        if r.backup then
          match generateBackupName dirs targetDirectory with
          | none => ⟨none, [FsOp.query true r.action]⟩
          | some backupDirectory =>
            if r.copyOk then
              let next := overwriteAction m_ModsDirectory (testOverwriteLoop m_ModsDirectory rest)
                r (backupDirectory :: dirs) targetDirectory
              ⟨next.result, FsOp.query true r.action ::
                FsOp.copyDir targetDirectory backupDirectory true :: next.ops⟩
            else
              ⟨some false, [FsOp.query true r.action,
                FsOp.copyDir targetDirectory backupDirectory false]⟩
        else
          let next := overwriteAction m_ModsDirectory (testOverwriteLoop m_ModsDirectory rest)
            r dirs targetDirectory
          ⟨next.result, FsOp.query false r.action :: next.ops⟩
      else ⟨some false, []⟩
    else ⟨some true, [FsOp.mkdir targetDirectory]⟩

/-- The function `testOverwrite` for the mod name, the answers of the rounds
and the existing directories. -/
def testOverwrite (m_ModsDirectory modName : QString) (dirs : List QString)
    (rounds : List OverwriteRound) : OverwriteRun :=
  testOverwriteLoop m_ModsDirectory rounds dirs (targetDirectoryOf m_ModsDirectory modName)

/-- A round in which the user asks for a backup and for the replacement of the
directory. -/
def backupReplaceRound (copyOk : Bool) : OverwriteRound :=
  ⟨true, true, OverwriteAction.ACT_REPLACE, copyOk, false, none, true, true⟩

/-! ## Mapping the tree back to the archive -/

/-- The calls `setSkip(false)` and `setOutputFileName` on the entry with
the given index; an index outside the file list changes nothing. -/
def enableEntry (data : List FileData) (index : Int) (outputFileName : QString) :
    List FileData :=
  if 0 ≤ index then
    match data[index.toNat]? with
    | some fd => data.set index.toNat { fd with skip := false, outputFileName := outputFileName }
    | none => data
  else data

/-- The path handed down by `mapToArchive`: a path that is not empty gets a
backslash at its end. -/
def withSeparator (path : QString) : QString :=
  if path.length > 0 then path ++ ['\\'] else path

mutual
/-- The function `mapToArchive(node, path, data)`: the leafs of the node are
enabled with the path and their name as output name, then the child directory
nodes are gone through. -/
def mapToArchiveNode : Node → QString → List FileData → List FileData
  | Node.mk _ nodes leafs, path, data =>
    mapToArchiveNodes nodes (withSeparator path)
      (leafs.foldl
        (fun d l => enableEntry d (l.index : Int) (withSeparator path ++ l.name)) data)
/-- The loop of `mapToArchive(node, path, data)` over the child directory
nodes: a node with an index other than `-1` is enabled with the path and its
name as output name, and the function is applied to the node with that output
name as its path. -/
def mapToArchiveNodes : List Node → QString → List FileData → List FileData
  | [], _, data => data
  | n :: rest, path, data =>
    mapToArchiveNodes rest path
      (mapToArchiveNode n (path ++ n.getData.name)
        (if n.getData.index ≠ -1 then enableEntry data n.getData.index (path ++ n.getData.name)
         else data))
end

/-- The function `mapToArchive(baseNode)`: every entry is flagged to be
skipped, then the entries present below the base node are enabled, starting
with the empty path. -/
def mapToArchive (baseNode : Node) (data : List FileData) : List FileData :=
  mapToArchiveNode baseNode [] (data.map (fun fd => { fd with skip := true }))

/-- The relation `Carries t names index`: following the names from `t`
(exclusive) through child directory nodes ends at a leaf that carries the
index, or at a directory node tagged with the index. -/
inductive Node.Carries : Node → List QString → Int → Prop
  | leaf {t : Node} {l : FileTreeInformation} : l ∈ t.leafs → Carries t [l.name] (l.index : Int)
  | dir {t c : Node} : c ∈ t.nodes → c.getData.index ≠ -1 →
      Carries t [c.getData.name] c.getData.index
  | inside {t c : Node} {names : List QString} {index : Int} : c ∈ t.nodes →
      Carries c names index → Carries t (c.getData.name :: names) index

/-- A sequence of names joined by backslashes. -/
def joinPath : List QString → QString
  | [] => []
  | [a] => a
  | a :: b :: rest => a ++ '\\' :: joinPath (b :: rest)

/-- The output name `mapToArchive` builds for the next name below a path. -/
def outputName (path name : QString) : QString := withSeparator path ++ name

mutual
/-- The index and output name of every entry `mapToArchive(node, path, data)`
enables, in the order of the calls. -/
def enabledBy : Node → QString → List (Int × QString)
  | Node.mk _ nodes leafs, path =>
    leafs.map (fun l => ((l.index : Int), withSeparator path ++ l.name)) ++
      enabledByNodes nodes (withSeparator path)
/-- The index and output name of every entry the loop over the child directory
nodes enables, in the order of the calls. -/
def enabledByNodes : List Node → QString → List (Int × QString)
  | [], _ => []
  | n :: rest, path =>
    (if n.getData.index ≠ -1 then [(n.getData.index, path ++ n.getData.name)] else []) ++
      (enabledBy n (path ++ n.getData.name) ++ enabledByNodes rest path)
end

/-- Every leaf of `n` belongs to the entry of the file list at its index, whose
components are the path of `n` followed by the name of the leaf, and no child
directory node of `n` has an index. -/
def IndexedBy (data : List FileData) (pre : List QString) (n : Node) : Prop :=
  (∀ l ∈ n.leafs, ∃ fd, data[l.index]? = some fd ∧ components fd = pre ++ [l.name]) ∧
    ∀ c ∈ n.nodes, c.getData.index = -1

/-! ## Properties of the tree builder -/

namespace Node

theorem All.mono {P Q : List QString → Node → Prop} (h : ∀ pre n, P pre n → Q pre n)
    {pre : List QString} {t : Node} (ht : All P pre t) : All Q pre t := by
  induction ht with
  | mk hP _ ih => exact All.mk (h _ _ hP) ih

theorem All.here {P : List QString → Node → Prop} {pre : List QString} {t : Node}
    (ht : All P pre t) : P pre t := by
  cases ht with
  | mk hP _ => exact hP

theorem All.within {P : List QString → Node → Prop} {n t : Node} (hw : Within n t) :
    ∀ pre, All P pre t → ∃ path, P path n := by
  induction hw with
  | here => intro pre ht; exact ⟨pre, ht.here⟩
  | inside hc _ ih =>
    intro pre ht
    cases ht with
    | mk _ hch => exact ih _ (hch _ hc)

end Node

theorem name_addPath (i : Nat) (isDir : Bool) (cs : List QString) (t : Node) :
    (addPath i isDir cs t).name = t.name := by
  cases cs with
  | nil => simp [addPath]
  | cons c rest =>
    cases t with
    | mk d nodes leafs =>
      rw [addPath]
      split
      · rfl
      · split
        · rfl
        · split
          · split <;> rfl
          · rfl

theorem descendInto_eq_none {name : QString} {f : Node → Node} {nodes : List Node} :
    descendInto name f nodes = none ↔ name ∉ nodes.map Node.name := by
  induction nodes with
  | nil => simp [descendInto]
  | cons n rest ih =>
    rw [descendInto]
    by_cases hn : n.name = name
    · simp [hn]
    · have hn2 : ¬ name = n.name := fun h => hn h.symm
      simp only [hn, if_false, List.map_cons, List.mem_cons, hn2, false_or]
      rw [← ih]
      cases descendInto name f rest <;> simp

theorem descendInto_map_name {name : QString} {f : Node → Node} (hf : ∀ n, (f n).name = n.name) :
    ∀ {nodes nodes2 : List Node}, descendInto name f nodes = some nodes2 →
      nodes2.map Node.name = nodes.map Node.name := by
  intro nodes
  induction nodes with
  | nil => intro nodes2 h; simp [descendInto] at h
  | cons n rest ih =>
    intro nodes2 h
    rw [descendInto] at h
    by_cases hn : n.name = name
    · simp only [hn, if_true, Option.some.injEq] at h
      subst h
      simp [hf]
    · simp only [hn, if_false] at h
      cases hr : descendInto name f rest with
      | none => simp [hr] at h
      | some rest2 =>
        simp only [hr, Option.some.injEq] at h
        subst h
        simp [ih hr]

theorem descendInto_mem {name : QString} {f : Node → Node} :
    ∀ {nodes nodes2 : List Node}, descendInto name f nodes = some nodes2 →
      ∀ x ∈ nodes2, x ∈ nodes ∨ ∃ m ∈ nodes, m.name = name ∧ x = f m := by
  intro nodes
  induction nodes with
  | nil => intro nodes2 h; simp [descendInto] at h
  | cons n rest ih =>
    intro nodes2 h x hx
    rw [descendInto] at h
    by_cases hn : n.name = name
    · simp only [hn, if_true, Option.some.injEq] at h
      subst h
      rcases List.mem_cons.mp hx with hx | hx
      · exact Or.inr ⟨n, List.mem_cons_self _ _, hn, hx⟩
      · exact Or.inl (List.mem_cons_of_mem _ hx)
    · simp only [hn, if_false] at h
      cases hr : descendInto name f rest with
      | none => simp [hr] at h
      | some rest2 =>
        simp only [hr, Option.some.injEq] at h
        subst h
        rcases List.mem_cons.mp hx with hx | hx
        · exact Or.inl (hx ▸ List.mem_cons_self _ _)
        · rcases ih hr x hx with h1 | ⟨m, hm, hmn, hxm⟩
          · exact Or.inl (List.mem_cons_of_mem _ h1)
          · exact Or.inr ⟨m, List.mem_cons_of_mem _ hm, hmn, hxm⟩

theorem getData_addPath (i : Nat) (isDir : Bool) (cs : List QString) (t : Node) :
    (addPath i isDir cs t).getData = t.getData := by
  cases cs with
  | nil => simp [addPath]
  | cons c rest =>
    cases t with
    | mk d nodes leafs =>
      rw [addPath]
      split
      · rfl
      · split
        · rfl
        · split
          · split <;> rfl
          · rfl

theorem descendInto_map_getData {name : QString} {f : Node → Node}
    (hf : ∀ n, (f n).getData = n.getData) :
    ∀ {nodes nodes2 : List Node}, descendInto name f nodes = some nodes2 →
      nodes2.map Node.getData = nodes.map Node.getData := by
  intro nodes
  induction nodes with
  | nil => intro nodes2 h; simp [descendInto] at h
  | cons n rest ih =>
    intro nodes2 h
    rw [descendInto] at h
    by_cases hn : n.name = name
    · simp only [hn, if_true, Option.some.injEq] at h
      subst h
      simp [hf]
    · simp only [hn, if_false] at h
      cases hr : descendInto name f rest with
      | none => simp [hr] at h
      | some rest2 =>
        simp only [hr, Option.some.injEq] at h
        subst h
        simp [ih hr]

/-- The way `addPath` carries a property of all nodes from the old tree to the
new one: it suffices that the property survives each of the local changes the
builder makes to a node (a child changed below, a directory node appended, a
leaf appended) and holds of a new, empty directory node. -/
theorem addPath_all {P Q : List QString → Node → Prop} (i : Nat) (isDir : Bool)
    (full : List QString)
    (hfresh : ∀ pre c idx, P pre (Node.mk ⟨c, idx⟩ [] []))
    (hsame : ∀ pre d nodes nodes2 leafs, P pre (Node.mk d nodes leafs) →
      nodes2.map Node.name = nodes.map Node.name →
      nodes2.map Node.getData = nodes.map Node.getData → Q pre (Node.mk d nodes2 leafs))
    (hdir : ∀ pre d nodes leafs c rest m, P pre (Node.mk d nodes leafs) →
      (∀ p ∈ pre, p ≠ []) → c ≠ [] → c ∉ nodes.map Node.name → m.name = c →
      (isDir = false → m.getData.index = -1) →
      pre ++ c :: rest = full → Q pre (Node.mk d (nodes ++ [m]) leafs))
    (hleaf : ∀ pre d nodes leafs c, P pre (Node.mk d nodes leafs) →
      (∀ p ∈ pre, p ≠ []) → c ≠ [] → c ∉ nodes.map Node.name → isDir = false →
      pre ++ [c] = full → Q pre (Node.mk d nodes (leafs ++ [⟨c, i⟩]))) :
    ∀ (cs pre : List QString) (t : Node), pre ++ cs = full → (∀ p ∈ pre, p ≠ []) →
      Node.All P pre t → Node.All Q pre (addPath i isDir cs t) := by
  have hmono : ∀ pre n, P pre n → Q pre n := by
    intro pre n hn
    cases n with
    | mk d nodes leafs => exact hsame pre d nodes nodes leafs hn rfl rfl
  intro cs
  induction cs with
  | nil =>
    intro pre t _ _ ht
    rw [addPath]
    exact ht.mono hmono
  | cons c rest ih =>
    intro pre t hfull hpre ht
    cases ht with
    | @mk _ d nodes leafs hP hch =>
      have hpre2 : ∀ p ∈ pre ++ [c], c ≠ [] → p ≠ [] := by
        intro p hp hc
        rcases List.mem_append.mp hp with h | h
        · exact hpre p h
        · rw [List.mem_singleton.mp h]; exact hc
      have hfull2 : (pre ++ [c]) ++ rest = full := by rw [← hfull]; simp
      rw [addPath]
      by_cases hc : c = []
      · simp only [hc, if_true]
        exact Node.All.mk (hmono _ _ hP) (fun x hx => (hch x hx).mono hmono)
      · simp only [hc, if_false]
        cases hdi : descendInto c (addPath i isDir rest) nodes with
        | some nodes2 =>
          simp only []
          refine Node.All.mk (hsame _ _ _ _ _ hP
            (descendInto_map_name (name_addPath i isDir rest) hdi)
            (descendInto_map_getData (getData_addPath i isDir rest) hdi)) ?_
          intro x hx
          rcases descendInto_mem hdi x hx with h | ⟨m, hm, hmn, hxm⟩
          · exact (hch x h).mono hmono
          · have hm2 := hch m hm
            rw [hmn] at hm2
            have := ih (pre ++ [c]) m hfull2 (fun p hp => hpre2 p hp hc) hm2
            rw [hxm, name_addPath, hmn]
            exact this
        | none =>
          simp only []
          have hnot : c ∉ nodes.map Node.name := descendInto_eq_none.mp hdi
          by_cases hrest : rest = []
          · simp only [hrest, if_true]
            cases hd : isDir with
            | true =>
              simp only [if_true]
              refine Node.All.mk (hdir pre d nodes leafs c rest _ hP hpre hc hnot rfl
                (fun h => absurd (hd.symm.trans h) (by decide)) hfull) ?_
              intro x hx
              rcases List.mem_append.mp hx with h | h
              · exact (hch x h).mono hmono
              · rw [List.mem_singleton.mp h]
                exact Node.All.mk (hmono _ _ (hfresh _ _ _)) (fun y hy => by simp at hy)
            | false =>
              simp only [Bool.false_eq_true, if_false]
              refine Node.All.mk (hleaf pre d nodes leafs c hP hpre hc hnot hd ?_) ?_
              · rw [← hfull, hrest]
              · exact fun x hx => (hch x hx).mono hmono
          · simp only [hrest, if_false]
            refine Node.All.mk (hdir pre d nodes leafs c rest _ hP hpre hc hnot
              (by rw [name_addPath]; rfl) (fun _ => by rw [getData_addPath]; rfl) hfull) ?_
            intro x hx
            rcases List.mem_append.mp hx with h | h
            · exact (hch x h).mono hmono
            · rw [List.mem_singleton.mp h, name_addPath]
              exact ih (pre ++ [c]) _ hfull2 (fun p hp => hpre2 p hp hc)
                (Node.All.mk (hfresh _ _ _) (fun y hy => by simp at hy))

theorem processed_append {pre : List QString} (hpre : ∀ p ∈ pre, p ≠ []) (l : List QString) :
    processed (pre ++ l) = pre ++ processed l := by
  induction pre with
  | nil => rfl
  | cons p pre ih =>
    have hp : p ≠ [] := hpre p (List.mem_cons_self _ _)
    have := ih (fun q hq => hpre q (List.mem_cons_of_mem _ hq))
    unfold processed at this ⊢
    simp only [List.cons_append, List.takeWhile_cons, ne_eq, hp, not_false_eq_true,
      decide_True, if_true, List.cons.injEq, true_and]
    exact this

theorem processed_of_nonempty {l : List QString} (hl : ∀ p ∈ l, p ≠ []) : processed l = l := by
  have := processed_append hl []
  simpa [processed] using this

/-- The directory nodes of the tree stay covered by the entries when one more
entry is added. -/
theorem addPath_dirsFrom (E : List FileData) (i : Nat) (fd : FileData) (t : Node)
    (ht : Node.All (DirsFrom E) [] t) :
    Node.All (DirsFrom (E ++ [fd])) [] (addPath i fd.isDirectory (components fd) t) := by
  refine addPath_all (P := DirsFrom E) (Q := DirsFrom (E ++ [fd])) i fd.isDirectory
    (components fd) ?_ ?_ ?_ ?_ (components fd) [] t rfl (by simp) ht
  · intro pre c idx x hx
    simp [Node.nodes] at hx
  · intro pre d nodes nodes2 leafs hP hmap _ x hx
    have hxn : x.name ∈ nodes.map Node.name := by
      rw [← hmap]; exact List.mem_map_of_mem _ hx
    obtain ⟨y, hy, hyx⟩ := List.mem_map.mp hxn
    obtain ⟨fj, hfj, hpf⟩ := hP y hy
    exact ⟨fj, List.mem_append_left _ hfj, hyx ▸ hpf⟩
  · intro pre d nodes leafs c rest m hP hpre hc _ hm _ hfull x hx
    rcases List.mem_append.mp (show x ∈ nodes ++ [m] from hx) with h | h
    · obtain ⟨fj, hfj, hpf⟩ := hP x h
      exact ⟨fj, List.mem_append_left _ hfj, hpf⟩
    · refine ⟨fd, by simp, ?_⟩
      rw [List.mem_singleton.mp h, hm, ← hfull, processed_append hpre]
      have hcr : processed (c :: rest) = c :: processed rest := by
        simp [processed, List.takeWhile_cons, hc]
      rw [hcr]
      exact ⟨processed rest, by simp⟩
  · intro pre d nodes leafs c hP _ _ _ _ _ x hx
    obtain ⟨fj, hfj, hpf⟩ := hP x hx
    exact ⟨fj, List.mem_append_left _ hfj, hpf⟩

theorem find_append_new {name : QString} {nodes : List Node} {m : Node}
    (hnot : name ∉ nodes.map Node.name) (hm : m.name = name) :
    (nodes ++ [m]).find? (fun c => decide (c.name = name)) = some m := by
  induction nodes with
  | nil => simp [hm]
  | cons n rest ih =>
    have hn : ¬ n.name = name := fun h => hnot (by simp [← h])
    have hr : name ∉ rest.map Node.name := fun h => hnot (by simp at h ⊢; exact Or.inr h)
    simp only [List.cons_append, List.find?_cons, hn, decide_False]
    exact ih hr

theorem find_append_old {name : QString} {nodes : List Node} {m x : Node}
    (h : nodes.find? (fun c => decide (c.name = name)) = some x) :
    (nodes ++ [m]).find? (fun c => decide (c.name = name)) = some x := by
  rw [List.find?_append, h]
  rfl

theorem descendInto_find {name : QString} {f : Node → Node} (hf : ∀ n, (f n).name = n.name) :
    ∀ {nodes nodes2 : List Node}, descendInto name f nodes = some nodes2 →
      ∃ m, m ∈ nodes ∧ nodes.find? (fun c => decide (c.name = name)) = some m ∧
        nodes2.find? (fun c => decide (c.name = name)) = some (f m) ∧
        ∀ other, other ≠ name → nodes2.find? (fun c => decide (c.name = other)) =
          (nodes.find? (fun c => decide (c.name = other))) := by
  intro nodes
  induction nodes with
  | nil => intro nodes2 h; simp [descendInto] at h
  | cons n rest ih =>
    intro nodes2 h
    rw [descendInto] at h
    by_cases hn : n.name = name
    · simp only [hn, if_true, Option.some.injEq] at h
      subst h
      refine ⟨n, List.mem_cons_self _ _, by simp [hn], by simp [hf, hn], ?_⟩
      intro other ho
      have h1 : ¬ n.name = other := fun h => ho (by rw [← h, hn])
      simp [List.find?_cons, hf, h1]
    · simp only [hn, if_false] at h
      cases hr : descendInto name f rest with
      | none => simp [hr] at h
      | some rest2 =>
        simp only [hr, Option.some.injEq] at h
        subst h
        obtain ⟨m, hm, h1, h2, h3⟩ := ih hr
        refine ⟨m, List.mem_cons_of_mem _ hm, by simp [List.find?_cons, hn, h1],
          by simp [List.find?_cons, hn, h2], ?_⟩
        intro other ho
        by_cases hno : n.name = other
        · simp [List.find?_cons, hno]
        · simp [List.find?_cons, hno, h3 other ho]

theorem reachesLeaf_single (d : DirectoryTreeInformation) (nodes : List Node)
    (leafs : List FileTreeInformation) (c : QString) (i : Nat) :
    (Node.mk d nodes leafs).reachesLeaf [c] i = decide ((⟨c, i⟩ : FileTreeInformation) ∈ leafs) := by
  simp [Node.reachesLeaf, Node.leafs]

theorem reachesLeaf_step (d : DirectoryTreeInformation) (nodes : List Node)
    (leafs : List FileTreeInformation) (c c2 : QString) (rest : List QString) (i : Nat) (m : Node)
    (hm : nodes.find? (fun x => decide (x.name = c)) = some m) :
    (Node.mk d nodes leafs).reachesLeaf (c :: c2 :: rest) i = m.reachesLeaf (c2 :: rest) i := by
  simp [Node.reachesLeaf, Node.child, Node.nodes, hm]

theorem reachesLeaf_step_inv (d : DirectoryTreeInformation) (nodes : List Node)
    (leafs : List FileTreeInformation) (c c2 : QString) (rest : List QString) (i : Nat)
    (h : (Node.mk d nodes leafs).reachesLeaf (c :: c2 :: rest) i = true) :
    ∃ m, nodes.find? (fun x => decide (x.name = c)) = some m ∧
      m.reachesLeaf (c2 :: rest) i = true := by
  cases hm : nodes.find? (fun x => decide (x.name = c)) with
  | none => simp [Node.reachesLeaf, Node.child, Node.nodes, hm] at h
  | some m => exact ⟨m, rfl, by rw [reachesLeaf_step _ _ _ _ _ _ _ _ hm] at h; exact h⟩

/-- A leaf that can be reached stays reachable when a further entry is added. -/
theorem reachesLeaf_addPath_mono (i j : Nat) (isDir : Bool) :
    ∀ (cs2 : List QString) (t : Node) (cs : List QString), t.reachesLeaf cs i = true →
      (addPath j isDir cs2 t).reachesLeaf cs i = true := by
  intro cs2
  induction cs2 with
  | nil => intro t cs h; rw [addPath]; exact h
  | cons c rest ih =>
    intro t cs h
    cases t with
    | mk d nodes leafs =>
      rw [addPath]
      by_cases hc : c = []
      · simp only [hc, if_true]; exact h
      · simp only [hc, if_false]
        match cs, h with
        | [], h => simp [Node.reachesLeaf] at h
        | [a], h =>
          rw [reachesLeaf_single] at h
          have hmem : (⟨a, i⟩ : FileTreeInformation) ∈ leafs := of_decide_eq_true h
          cases hdi : descendInto c (addPath j isDir rest) nodes with
          | some nodes2 => simp only []; rw [reachesLeaf_single]; exact decide_eq_true hmem
          | none =>
            simp only []
            split
            · split
              · rw [reachesLeaf_single]; exact decide_eq_true hmem
              · rw [reachesLeaf_single]; exact decide_eq_true (List.mem_append_left _ hmem)
            · rw [reachesLeaf_single]; exact decide_eq_true hmem
        | a :: a2 :: as, h =>
          obtain ⟨m, hm, hreach⟩ := reachesLeaf_step_inv _ _ _ _ _ _ _ h
          cases hdi : descendInto c (addPath j isDir rest) nodes with
          | some nodes2 =>
            simp only []
            obtain ⟨m2, _, h1, h2, h3⟩ := descendInto_find (name_addPath j isDir rest) hdi
            by_cases hac : a = c
            · subst hac
              rw [hm] at h1
              cases h1
              rw [reachesLeaf_step _ _ _ _ _ _ _ _ h2]
              exact ih m _ hreach
            · rw [reachesLeaf_step _ _ _ _ _ _ _ m ((h3 a hac).trans hm)]
              exact hreach
          | none =>
            simp only []
            split
            · split
              · rw [reachesLeaf_step _ _ _ _ _ _ _ m (find_append_old hm)]; exact hreach
              · rw [reachesLeaf_step _ _ _ _ _ _ _ m hm]; exact hreach
            · rw [reachesLeaf_step _ _ _ _ _ _ _ m (find_append_old hm)]; exact hreach

/-- A file entry whose components are all non-empty and do not run along a
directory of the tree gets its leaf. -/
theorem reachesLeaf_addPath_new (E : List FileData) (i : Nat) (full : List QString)
    (hE : ∀ fj ∈ E, ¬ full <+: processed (components fj)) :
    ∀ (cs pre : List QString) (t : Node), cs ≠ [] → (∀ c ∈ cs, c ≠ []) → pre ++ cs = full →
      Node.All (DirsFrom E) pre t → (addPath i false cs t).reachesLeaf cs i = true := by
  intro cs
  induction cs with
  | nil => intro pre t h; exact absurd rfl h
  | cons c rest ih =>
    intro pre t _ hne hfull ht
    have hc : c ≠ [] := hne c (List.mem_cons_self _ _)
    have hfull2 : (pre ++ [c]) ++ rest = full := by rw [← hfull]; simp
    cases ht with
    | @mk _ d nodes leafs hP hch =>
      rw [addPath]
      simp only [hc, if_false]
      cases hdi : descendInto c (addPath i false rest) nodes with
      | some nodes2 =>
        simp only []
        obtain ⟨m, hm, h1, h2, _⟩ := descendInto_find (name_addPath i false rest) hdi
        have hmn : m.name = c := by
          have := List.find?_some h1
          exact of_decide_eq_true this
        cases rest with
        | nil =>
          exfalso
          obtain ⟨fj, hfj, hpf⟩ := hP m hm
          rw [hmn, hfull] at hpf
          exact hE fj hfj hpf
        | cons c2 rest2 =>
          rw [reachesLeaf_step _ _ _ _ _ _ _ _ h2]
          have hm2 := hch m hm
          rw [hmn] at hm2
          exact ih (pre ++ [c]) m (by simp) (fun x hx => hne x (List.mem_cons_of_mem _ hx))
            hfull2 hm2
      | none =>
        simp only []
        have hnot : c ∉ nodes.map Node.name := descendInto_eq_none.mp hdi
        cases rest with
        | nil => simp [reachesLeaf_single]
        | cons c2 rest2 =>
          simp only [reduceCtorEq, if_false]
          rw [reachesLeaf_step _ _ _ _ _ _ _ _
            (find_append_new hnot (by rw [name_addPath]; rfl))]
          refine ih (pre ++ [c]) _ (by simp) (fun x hx => hne x (List.mem_cons_of_mem _ hx))
            hfull2 (Node.All.mk ?_ (fun y hy => by simp at hy))
          intro x hx
          simp [Node.nodes] at hx

theorem buildFrom_append (l1 l2 : List FileData) :
    ∀ (k : Nat) (t : Node),
      buildFrom k (l1 ++ l2) t = buildFrom (k + l1.length) l2 (buildFrom k l1 t) := by
  induction l1 with
  | nil => intro k t; simp [buildFrom]
  | cons fd rest ih =>
    intro k t
    rw [List.cons_append, buildFrom, buildFrom, ih, List.length_cons]
    congr 1
    omega

theorem buildFrom_dirsFrom (l : List FileData) :
    ∀ (k : Nat) (E : List FileData) (t : Node), Node.All (DirsFrom E) [] t →
      Node.All (DirsFrom (E ++ l)) [] (buildFrom k l t) := by
  induction l with
  | nil => intro k E t ht; simpa [buildFrom] using ht
  | cons fd rest ih =>
    intro k E t ht
    have := ih (k + 1) (E ++ [fd]) _ (addPath_dirsFrom E k fd t ht)
    simpa [buildFrom] using this

theorem buildFrom_reachesLeaf_mono (i : Nat) (cs : List QString) (l : List FileData) :
    ∀ (k : Nat) (t : Node), t.reachesLeaf cs i = true →
      (buildFrom k l t).reachesLeaf cs i = true := by
  induction l with
  | nil => intro k t h; simpa [buildFrom] using h
  | cons fd rest ih =>
    intro k t h
    rw [buildFrom]
    exact ih _ _ (reachesLeaf_addPath_mono i k fd.isDirectory _ t cs h)

theorem split_ne_nil (sep : Char) (s : QString) : split sep s ≠ [] := by
  induction s with
  | nil => simp [split]
  | cons c cs ih =>
    rw [split]
    split
    · simp
    · split <;> simp

theorem emptyTree_dirsFrom : Node.All (DirsFrom []) [] emptyTree :=
  Node.All.mk (fun x hx => by simp [Node.nodes] at hx) (fun y hy => by simp at hy)

theorem data_eq_take_cons_drop {data : List FileData} {i : Nat} {fd : FileData}
    (hi : data[i]? = some fd) :
    data = data.take i ++ fd :: data.drop (i + 1) ∧ (data.take i).length = i := by
  obtain ⟨hlt, hget⟩ := List.getElem?_eq_some.mp hi
  constructor
  · conv_lhs => rw [← List.take_append_drop i data]
    rw [List.drop_eq_getElem_cons hlt, hget]
  · rw [List.length_take]; omega

theorem split_injective (sep : Char) :
    ∀ s s2 : QString, split sep s = split sep s2 → s = s2 := by
  intro s
  induction s with
  | nil =>
    intro s2 h
    cases s2 with
    | nil => rfl
    | cons c cs =>
      exfalso
      rw [split, split] at h
      by_cases hc : c = sep
      · simp only [hc, if_true, List.cons.injEq, true_and] at h
        exact split_ne_nil sep cs h.symm
      · simp only [hc, if_false] at h
        cases hs : split sep cs with
        | nil => simp [hs] at h
        | cons x xs => simp [hs] at h
  | cons c cs ih =>
    intro s2 h
    cases s2 with
    | nil =>
      exfalso
      rw [split, split] at h
      by_cases hc : c = sep
      · simp only [hc, if_true, List.cons.injEq, true_and] at h
        exact split_ne_nil sep cs h
      · simp only [hc, if_false] at h
        cases hs : split sep cs with
        | nil => simp [hs] at h
        | cons x xs => simp [hs] at h
    | cons c2 cs2 =>
      rw [split, split] at h
      have h1 := split_ne_nil sep cs
      have h2 := split_ne_nil sep cs2
      by_cases hc : c = sep <;> by_cases hc2 : c2 = sep
      · simp only [hc, hc2, if_true, List.cons.injEq, true_and] at h
        rw [hc, hc2, ih cs2 h]
      · simp only [hc, hc2, if_true, if_false] at h
        cases hs : split sep cs2 with
        | nil => exact absurd hs h2
        | cons x xs => simp [hs] at h
      · simp only [hc, hc2, if_true, if_false] at h
        cases hs : split sep cs with
        | nil => exact absurd hs h1
        | cons x xs => simp [hs] at h
      · simp only [hc, hc2, if_false] at h
        cases hs : split sep cs with
        | nil => exact absurd hs h1
        | cons x xs =>
          cases hs2 : split sep cs2 with
          | nil => exact absurd hs2 h2
          | cons y ys =>
            simp only [hs, hs2, List.cons.injEq] at h
            obtain ⟨⟨hcc, hxy⟩, hrest⟩ := h
            have : split sep cs = split sep cs2 := by rw [hs, hs2, hxy, hrest]
            rw [hcc, ih cs2 this]

/-- Entries with different paths of which the first is not a proper prefix of
the second: the first does not run along the processed part of the
second. -/
theorem not_processed_of_not_properPrefix {a b : FileData} (hab : a.fileName ≠ b.fileName)
    (h : ¬ properPrefix (components a) (components b)) :
    ¬ components a <+: processed (components b) := by
  intro hp
  apply h
  refine ⟨hp.trans (List.takeWhile_prefix _), ?_⟩
  intro heq
  exact hab (split_injective _ _ _ heq)

/-- C1 (as amended): for every flat list of archive entries in which no two
entries have the same full path, the tree built by `createFilesTree`
contains every file entry whose path segments are all non-empty and whose
segment sequence is not a segment-wise proper prefix of the segment sequence
of an earlier entry: following its segments from the root through child
directory nodes ends at a leaf that carries the last segment as its name and
the position of the entry as its index. -/
theorem createFilesTree_reaches_file (data : List FileData)
    (hnodup : (data.map FileData.fileName).Nodup) (i : Nat) (fd : FileData)
    (hi : data[i]? = some fd) (hfile : fd.isDirectory = false)
    (hne : ∀ c ∈ components fd, c ≠ [])
    (hpre : ∀ fj ∈ data.take i, ¬ properPrefix (components fd) (components fj)) :
    (createFilesTree data).reachesLeaf (components fd) i = true := by
  obtain ⟨hdata, hlen⟩ := data_eq_take_cons_drop hi
  have hpre2 : ∀ fj ∈ data.take i, ¬ components fd <+: processed (components fj) := by
    intro fj hfj
    refine not_processed_of_not_properPrefix ?_ (hpre fj hfj)
    rw [hdata, List.map_append, List.map_cons] at hnodup
    have hnot := (List.nodup_cons.mp (List.nodup_middle.mp hnodup)).1
    intro heq
    exact hnot (List.mem_append_left _ (heq ▸ List.mem_map_of_mem _ hfj))
  have hbuilt := buildFrom_dirsFrom (data.take i) 0 [] emptyTree emptyTree_dirsFrom
  rw [List.nil_append] at hbuilt
  have hnew := reachesLeaf_addPath_new (data.take i) i (components fd) hpre2 (components fd) []
    (buildFrom 0 (data.take i) emptyTree) (split_ne_nil _ _) hne rfl hbuilt
  unfold createFilesTree
  rw [hdata, buildFrom_append, hlen, buildFrom, hfile, Nat.zero_add]
  exact buildFrom_reachesLeaf_mono i _ _ _ _ hnew

/-- The builder applied to a listed directory, a file inside it and a file at
the top level: the hypotheses hold for the last entry and its leaf is
reached. -/
theorem createFilesTree_reaches_file_witness :
    ([dirEntry "data\\", fileEntry "data\\a.esp", fileEntry "readme.txt"].map
      FileData.fileName).Nodup ∧
    (∀ c ∈ components (fileEntry "readme.txt"), c ≠ []) ∧
    (∀ fj ∈ [dirEntry "data\\", fileEntry "data\\a.esp", fileEntry "readme.txt"].take 2,
      ¬ properPrefix (components (fileEntry "readme.txt")) (components fj)) ∧
    (createFilesTree
      [dirEntry "data\\", fileEntry "data\\a.esp", fileEntry "readme.txt"]).reachesLeaf
      (components (fileEntry "readme.txt")) 2 = true :=
  ⟨by decide, by decide, by decide,
    createFilesTree_reaches_file
      [dirEntry "data\\", fileEntry "data\\a.esp", fileEntry "readme.txt"] (by decide) 2
      (fileEntry "readme.txt") rfl rfl (by decide) (by decide)⟩

/-- C1 (as stated) fails. The paths `a\b` and `a` differ, but when the file `a`
is added the directory node `a` exists already, the search finds it and no
leaf is created: the root has no leaf at all. And the only entry of the second
list has an empty segment, at which the builder stops: its leaf is never
created. -/
theorem createFilesTree_file_not_reached :
    ([fileEntry "a\\b", fileEntry "a"].map FileData.fileName).Nodup ∧
    [fileEntry "a\\b", fileEntry "a"][1]? = some (fileEntry "a") ∧
    (fileEntry "a").isDirectory = false ∧
    (createFilesTree [fileEntry "a\\b", fileEntry "a"]).reachesLeaf
      (components (fileEntry "a")) 1 = false ∧
    (createFilesTree [fileEntry "a\\b", fileEntry "a"]).leafs = [] ∧
    (createFilesTree [fileEntry "docs\\\\a.txt"]).reachesLeaf
      (components (fileEntry "docs\\\\a.txt")) 0 = false := by
  decide

/-- The names of siblings stay distinct, and the leafs stay covered by file
entries, when an entry is added that no earlier file entry runs into. -/
theorem addPath_leafsFrom (E : List FileData) (i : Nat) (fd : FileData) (t : Node)
    (hE : ∀ fj ∈ E, noFileAbove fj fd) (ht : Node.All (LeafsFrom E) [] t) :
    Node.All (LeafsFrom (E ++ [fd])) [] (addPath i fd.isDirectory (components fd) t) := by
  refine addPath_all (P := LeafsFrom E) (Q := LeafsFrom (E ++ [fd])) i fd.isDirectory
    (components fd) ?_ ?_ ?_ ?_ (components fd) [] t rfl (by simp) ht
  · intro pre c idx
    exact ⟨by simp [Node.childNames, Node.nodes, Node.leafs], fun l hl => by simp [Node.leafs] at hl⟩
  · intro pre d nodes nodes2 leafs hP hmap _
    refine ⟨?_, ?_⟩
    · have := hP.1
      simp only [Node.childNames, Node.nodes, Node.leafs] at this ⊢
      rw [hmap]; exact this
    · intro l hl
      obtain ⟨fj, hfj, h1, h2⟩ := hP.2 l hl
      exact ⟨fj, List.mem_append_left _ hfj, h1, h2⟩
  · intro pre d nodes leafs c rest m hP hpre hc hnot hm _ hfull
    refine ⟨?_, ?_⟩
    · have hold := hP.1
      simp only [Node.childNames, Node.nodes, Node.leafs] at hold ⊢
      rw [List.map_append, List.map_singleton, hm, List.append_assoc, List.singleton_append,
        List.nodup_middle, List.nodup_cons]
      refine ⟨?_, hold⟩
      intro hmem
      rcases List.mem_append.mp hmem with h | h
      · exact hnot h
      · obtain ⟨l, hl, hlc⟩ := List.mem_map.mp h
        obtain ⟨fj, hfj, h1, h2⟩ := hP.2 l hl
        apply hE fj hfj h1
        rw [h2, hlc, ← hfull, processed_append hpre]
        have hcr : processed (c :: rest) = c :: processed rest := by
          simp [processed, List.takeWhile_cons, hc]
        rw [hcr]
        exact ⟨processed rest, by simp⟩
    · intro l hl
      obtain ⟨fj, hfj, h1, h2⟩ := hP.2 l hl
      exact ⟨fj, List.mem_append_left _ hfj, h1, h2⟩
  · intro pre d nodes leafs c hP hpre hc hnot hfile hfull
    refine ⟨?_, ?_⟩
    · have hold := hP.1
      simp only [Node.childNames, Node.nodes, Node.leafs] at hold ⊢
      rw [List.map_append, List.map_singleton, ← List.append_assoc, List.nodup_middle,
        List.nodup_cons, List.append_nil]
      refine ⟨?_, hold⟩
      intro hmem
      rcases List.mem_append.mp hmem with h | h
      · exact hnot h
      · obtain ⟨l, hl, hlc⟩ := List.mem_map.mp h
        obtain ⟨fj, hfj, h1, h2⟩ := hP.2 l hl
        apply hE fj hfj h1
        have hall : ∀ p ∈ pre ++ [c], p ≠ [] := by
          intro p hp
          rcases List.mem_append.mp hp with h | h
          · exact hpre p h
          · rw [List.mem_singleton.mp h]; exact hc
        rw [h2, hlc, ← hfull, processed_of_nonempty hall]
    · intro l hl
      rcases List.mem_append.mp (show l ∈ leafs ++ [⟨c, i⟩] from hl) with h | h
      · obtain ⟨fj, hfj, h1, h2⟩ := hP.2 l h
        exact ⟨fj, List.mem_append_left _ hfj, h1, h2⟩
      · rw [List.mem_singleton.mp h]
        exact ⟨fd, by simp, hfile, hfull.symm⟩

theorem buildFrom_leafsFrom (l : List FileData) :
    ∀ (k : Nat) (E : List FileData) (t : Node), (∀ a ∈ E, ∀ b ∈ l, noFileAbove a b) →
      l.Pairwise noFileAbove → Node.All (LeafsFrom E) [] t →
      Node.All (LeafsFrom (E ++ l)) [] (buildFrom k l t) := by
  induction l with
  | nil => intro k E t _ _ ht; simpa [buildFrom] using ht
  | cons fd rest ih =>
    intro k E t hE hl ht
    have hstep := addPath_leafsFrom E k fd t (fun a ha => hE a ha fd (List.mem_cons_self _ _)) ht
    have hl2 := List.pairwise_cons.mp hl
    have := ih (k + 1) (E ++ [fd]) _ (by
      intro a ha b hb
      rcases List.mem_append.mp ha with h | h
      · exact hE a h b (List.mem_cons_of_mem _ hb)
      · rw [List.mem_singleton.mp h]; exact hl2.1 b hb) hl2.2 hstep
    simpa [buildFrom] using this

/-- C2 (as amended): for every flat list of archive entries in which no two
entries have the same full path and no file entry's segment sequence is a
segment-wise proper prefix of the segment sequence of a later entry, no two
siblings of the tree built by `createFilesTree` share a name: within every
node of the tree the names of the child directory nodes and of the leafs are
pairwise distinct. -/
theorem createFilesTree_siblings_distinct (data : List FileData)
    (hnodup : (data.map FileData.fileName).Nodup)
    (hdata : data.Pairwise noFileOnPath) (n : Node)
    (hn : Node.Within n (createFilesTree data)) : n.childNames.Nodup := by
  have hpairs : data.Pairwise noFileAbove := by
    have hne : data.Pairwise (fun a b => a.fileName ≠ b.fileName) :=
      List.pairwise_map.mp hnodup
    refine (hne.and hdata).imp ?_
    intro a b hab hfile
    exact not_processed_of_not_properPrefix hab.1 (hab.2 hfile)
  have hroot : Node.All (LeafsFrom []) [] emptyTree :=
    Node.All.mk ⟨by simp [Node.childNames, Node.nodes, Node.leafs],
      fun l hl => by simp [Node.leafs] at hl⟩ (fun y hy => by simp at hy)
  have hall := buildFrom_leafsFrom data 0 [] emptyTree (fun a ha => by simp at ha) hpairs hroot
  obtain ⟨path, hP⟩ := Node.All.within hn [] hall
  exact hP.1

/-- The builder applied to a listed directory, a file inside it and a file at
the top level: no file lies on the path of a later entry and the names below
the root are distinct. -/
theorem createFilesTree_siblings_distinct_witness :
    ([dirEntry "data\\", fileEntry "data\\a.esp", fileEntry "readme.txt"].map
      FileData.fileName).Nodup ∧
    [dirEntry "data\\", fileEntry "data\\a.esp", fileEntry "readme.txt"].Pairwise noFileOnPath ∧
    (createFilesTree
      [dirEntry "data\\", fileEntry "data\\a.esp", fileEntry "readme.txt"]).childNames.Nodup :=
  ⟨by decide, by decide,
    createFilesTree_siblings_distinct
      [dirEntry "data\\", fileEntry "data\\a.esp", fileEntry "readme.txt"] (by decide) (by decide) _
      (Node.Within.here _)⟩

/-- C2 (as stated) fails: the paths `docs` and `docs\readme.txt` differ, the
first gives the root a leaf `docs`, and the search for a directory `docs`
looks at the child directory nodes only, so the second gives the root a
directory node of the same name. -/
theorem createFilesTree_siblings_clash :
    ([fileEntry "docs", fileEntry "docs\\readme.txt"].map FileData.fileName).Nodup ∧
    (createFilesTree [fileEntry "docs", fileEntry "docs\\readme.txt"]).childNames =
      ["docs".toList, "docs".toList] ∧
    ¬ ∀ n, Node.Within n (createFilesTree [fileEntry "docs", fileEntry "docs\\readme.txt"]) →
      n.childNames.Nodup := by
  refine ⟨by decide, by decide, fun h => ?_⟩
  have := h _ (Node.Within.here _)
  revert this
  decide

/-! ## Properties of the installer chain dispatcher -/

theorem insertInstaller_perm (x : IPluginInstaller) (l : List IPluginInstaller) :
    (insertInstaller x l).Perm (x :: l) := by
  induction l with
  | nil => exact List.Perm.refl _
  | cons y ys ih =>
    rw [insertInstaller]
    split
    · exact ((List.Perm.cons y ih).trans (List.Perm.swap x y ys))
    · exact List.Perm.refl _

theorem sortInstallers_perm (l : List IPluginInstaller) : (sortInstallers l).Perm l := by
  induction l with
  | nil => exact List.Perm.refl _
  | cons x xs ih =>
    rw [sortInstallers]
    exact (insertInstaller_perm x _).trans (List.Perm.cons x ih)

theorem insertInstaller_sorted (x : IPluginInstaller) (l : List IPluginInstaller)
    (hl : l.Pairwise (fun a b => a.priority ≥ b.priority)) :
    (insertInstaller x l).Pairwise (fun a b => a.priority ≥ b.priority) := by
  induction l with
  | nil => simp [insertInstaller]
  | cons y ys ih =>
    have hy := List.pairwise_cons.mp hl
    rw [insertInstaller]
    by_cases h : higherPriority y x = true
    · simp only [h, if_true]
      refine List.pairwise_cons.mpr ⟨?_, ih hy.2⟩
      intro z hz
      rcases List.mem_cons.mp ((insertInstaller_perm x ys).mem_iff.mp hz) with hzx | hzy
      · rw [hzx]
        have : y.priority > x.priority := of_decide_eq_true h
        exact le_of_lt this
      · exact hy.1 z hzy
    · simp only [h, if_false]
      have hxy : x.priority ≥ y.priority := by
        have : ¬ y.priority > x.priority := fun hgt => h (decide_eq_true hgt)
        exact not_lt.mp this
      refine List.pairwise_cons.mpr ⟨?_, hl⟩
      intro z hz
      rcases List.mem_cons.mp hz with hzy | hzy
      · rw [hzy]; exact hxy
      · exact le_trans (hy.1 z hzy) hxy

theorem sortInstallers_sorted (l : List IPluginInstaller) :
    (sortInstallers l).Pairwise (fun a b => a.priority ≥ b.priority) := by
  induction l with
  | nil => simp [sortInstallers]
  | cons x xs ih =>
    rw [sortInstallers]
    exact insertInstaller_sorted x _ ih

/-- The three ways one round of the loop of `install` can go while no result
is final: the installer is passed over; its `install` is called and ends the
run; its `install` is called and the loop goes on with the rest. -/
theorem installLoop_cons_cases (s : Session) (installer : IPluginInstaller)
    (rest : List IPluginInstaller) (r : EInstallResult)
    (hr : r = EInstallResult.RESULT_NOTATTEMPTED ∨ r = EInstallResult.RESULT_MANUALREQUESTED) :
    (installLoop s (installer :: rest) r = installLoop s rest r ∧
      (installer.isActive = false ∨
        (r = EInstallResult.RESULT_MANUALREQUESTED ∧ installer.isManualInstaller = false) ∨
        isInvoked s installer = false)) ∨
    (installer.isActive = true ∧
      (r = EInstallResult.RESULT_MANUALREQUESTED → installer.isManualInstaller = true) ∧
      isInvoked s installer = true ∧
      ((∃ res, installLoop s (installer :: rest) r = ⟨res, [installer]⟩ ∧
          ((installer.installOutcome = InstallOutcome.returns EInstallResult.RESULT_FAILED ∧
              res = some false) ∨
            (installer.installOutcome = InstallOutcome.returns EInstallResult.RESULT_CANCELED ∧
              res = some false) ∨
            (installer.installOutcome = InstallOutcome.returns EInstallResult.RESULT_SUCCESS ∧
              installer.kind = InstallerKind.custom ∧ res = some s.filesTree.isSome) ∨
            (installer.installOutcome = InstallOutcome.returns EInstallResult.RESULT_SUCCESS ∧
              installer.kind = InstallerKind.simple))) ∨
        (∃ r2, (r2 = EInstallResult.RESULT_NOTATTEMPTED ∨
            r2 = EInstallResult.RESULT_MANUALREQUESTED) ∧
          (installer.installOutcome = InstallOutcome.returns r2 ∨
            (installer.installOutcome = InstallOutcome.throwsIncompatibility ∧ r2 = r)) ∧
          installLoop s (installer :: rest) r =
            ⟨(installLoop s rest r2).result, installer :: (installLoop s rest r2).calls⟩))) := by
  cases hact : installer.isActive with
  | false => left; exact ⟨by simp [installLoop, hact], Or.inl rfl⟩
  | true =>
    by_cases hman : r = EInstallResult.RESULT_MANUALREQUESTED ∧ installer.isManualInstaller = false
    · left
      exact ⟨by simp [installLoop, hact, hman.1, hman.2], Or.inr (Or.inl hman)⟩
    · have hman2 : r = EInstallResult.RESULT_MANUALREQUESTED → installer.isManualInstaller = true := by
        intro h1
        cases h2 : installer.isManualInstaller with
        | true => rfl
        | false => exact absurd ⟨h1, h2⟩ hman
      have hskip : (decide (r = EInstallResult.RESULT_MANUALREQUESTED) &&
          !installer.isManualInstaller) = false := by
        cases h2 : installer.isManualInstaller with
        | true => simp
        | false =>
          have : r ≠ EInstallResult.RESULT_MANUALREQUESTED := fun h1 => hman ⟨h1, h2⟩
          simp [this]
      cases hinv : isInvoked s installer with
      | false =>
        left
        refine ⟨?_, Or.inr (Or.inr rfl)⟩
        rcases hr with h | h <;> subst h <;>
          simp [installLoop, hact, hinv, tryInstaller] at hskip ⊢
      | true =>
        right
        refine ⟨rfl, hman2, rfl, ?_⟩
        cases hout : installer.installOutcome with
        | throwsIncompatibility =>
          right
          refine ⟨r, hr, Or.inr ⟨rfl, rfl⟩, ?_⟩
          rcases hr with h | h <;> subst h <;>
            simp [installLoop, hact, hinv, tryInstaller, hout] at hskip ⊢
          simp [hskip]
        | returns r2 =>
          cases hkind : installer.kind <;> cases r2 <;>
            rcases hdo : s.doInstall with _ | _ | _ <;>
            rcases hr with h | h <;> subst h <;>
            simp [installLoop, hact, hinv, tryInstaller, hout, hkind, hdo] at hskip ⊢ <;>
            try simp [hskip]

theorem installLoop_calls_sublist (s : Session) (l : List IPluginInstaller) :
    ∀ r, (r = EInstallResult.RESULT_NOTATTEMPTED ∨ r = EInstallResult.RESULT_MANUALREQUESTED) →
      (installLoop s l r).calls.Sublist (l.filter (fun x => x.isActive)) := by
  induction l with
  | nil => intro r _; simp [installLoop]
  | cons installer rest ih =>
    intro r hr
    rcases installLoop_cons_cases s installer rest r hr with
      ⟨heq, _⟩ | ⟨hact, _, _, ⟨res, heq, _⟩ | ⟨r2, hr2, _, heq⟩⟩
    · rw [heq]
      exact (ih r hr).trans ((List.sublist_cons_self _ _).filter _)
    · rw [heq, List.filter_cons_of_pos (by simpa using hact)]
      exact List.Sublist.cons₂ _ (List.nil_sublist _)
    · rw [heq, List.filter_cons_of_pos (by simpa using hact)]
      exact List.Sublist.cons₂ _ (ih r2 hr2)

theorem installLoop_all_decline (s : Session) (l : List IPluginInstaller)
    (hl : ∀ x ∈ l, x.isActive = true → declines s x = true) :
    installLoop s l EInstallResult.RESULT_NOTATTEMPTED =
      ⟨some false, l.filter (fun x => x.isActive)⟩ := by
  induction l with
  | nil => simp [installLoop]
  | cons installer rest ih =>
    have ih2 := ih (fun x hx => hl x (List.mem_cons_of_mem _ hx))
    cases hact : installer.isActive with
    | false => simp [installLoop, hact, ih2]
    | true =>
      have hd := hl installer (List.mem_cons_self _ _) hact
      simp only [declines, Bool.and_eq_true, decide_eq_true_eq] at hd
      cases hkind : installer.kind <;>
        simp [installLoop, hact, tryInstaller, hd.1, hd.2, hkind, ih2]

/-- C3: a run of `install` calls active installers only, in the order of the
sorted list, which holds exactly the active installers in non-increasing
order of priority; when the file format is supported and every active
installer declines, every active installer is called, in that order; with
priorities 10, 50 and 30 and every installer declining, the call order is 50,
then 30, then 10. -/
theorem install_call_order (s : Session) (installers : List IPluginInstaller) :
    ((sortInstallers installers).filter (fun x => x.isActive)).Perm
      (installers.filter (fun x => x.isActive)) ∧
    ((sortInstallers installers).filter (fun x => x.isActive)).Pairwise
      (fun a b => a.priority ≥ b.priority) ∧
    (install s installers).calls.Sublist
      ((sortInstallers installers).filter (fun x => x.isActive)) ∧
    (∀ x ∈ (install s installers).calls, x.isActive = true) ∧
    (install s installers).calls.Pairwise (fun a b => a.priority ≥ b.priority) ∧
    (s.formatSupported = true →
      (∀ x ∈ installers, x.isActive = true → declines s x = true) →
      (install s installers).calls = (sortInstallers installers).filter (fun x => x.isActive)) ∧
    (∀ a b c : IPluginInstaller, a.priority = 10 → b.priority = 50 → c.priority = 30 →
      s.formatSupported = true →
      (∀ x ∈ [a, b, c], x.isActive = true ∧ declines s x = true) →
      (install s [a, b, c]).calls = [b, c, a]) := by
  have hsorted : ((sortInstallers installers).filter (fun x => x.isActive)).Pairwise
      (fun a b => a.priority ≥ b.priority) :=
    (sortInstallers_sorted installers).sublist (List.filter_sublist _)
  have hsub : (install s installers).calls.Sublist
      ((sortInstallers installers).filter (fun x => x.isActive)) := by
    unfold install
    split
    · exact List.nil_sublist _
    · exact installLoop_calls_sublist s _ _ (Or.inl rfl)
  refine ⟨(sortInstallers_perm installers).filter _, hsorted, hsub, ?_, hsorted.sublist hsub,
    ?_, ?_⟩
  · intro x hx
    have := List.mem_filter.mp (hsub.subset hx)
    exact this.2
  · intro hfmt hdecl
    unfold install
    rw [hfmt]
    simp only [Bool.not_true, Bool.false_eq_true, if_false]
    rw [installLoop_all_decline s _
      (fun x hx => hdecl x ((sortInstallers_perm installers).mem_iff.mp hx))]
  · intro a b c ha hb hc hfmt hall
    have hsort : sortInstallers [a, b, c] = [b, c, a] := by
      simp [sortInstallers, insertInstaller, higherPriority, ha, hb, hc]
    unfold install
    rw [hfmt]
    simp only [Bool.not_true, Bool.false_eq_true, if_false]
    rw [hsort, installLoop_all_decline s _ (fun x hx _ => by
      have hx2 : x ∈ [a, b, c] := by
        simp only [List.mem_cons, List.mem_singleton, List.not_mem_nil, or_false] at hx ⊢
        tauto
      exact (hall x hx2).2)]
    have h1 := (hall a (by simp)).1
    have h2 := (hall b (by simp)).1
    have h3 := (hall c (by simp)).1
    simp [h1, h2, h3]

/-- Three active simple installers of priorities 10, 50 and 30 that all decline
are called in the order 50, 30, 10. -/
theorem install_call_order_witness :
    openSession.formatSupported = true ∧
    ((install openSession
      [simpleInstaller "a" 10 false (InstallOutcome.returns EInstallResult.RESULT_NOTATTEMPTED),
       simpleInstaller "b" 50 false (InstallOutcome.returns EInstallResult.RESULT_NOTATTEMPTED),
       simpleInstaller "c" 30 true
         (InstallOutcome.returns EInstallResult.RESULT_NOTATTEMPTED)]).calls.map
        (fun x => x.priority)) = [50, 30, 10] := by
  refine ⟨rfl, ?_⟩
  rw [(install_call_order openSession
    [simpleInstaller "a" 10 false (InstallOutcome.returns EInstallResult.RESULT_NOTATTEMPTED),
     simpleInstaller "b" 50 false (InstallOutcome.returns EInstallResult.RESULT_NOTATTEMPTED),
     simpleInstaller "c" 30 true
       (InstallOutcome.returns EInstallResult.RESULT_NOTATTEMPTED)]).2.2.2.2.2.1 rfl (by decide)]
  decide

/-- A call that returns `RESULT_FAILED` or `RESULT_CANCELED` is the last call of
the loop, and the loop then gives `false`. -/
theorem installLoop_final (s : Session) (target : EInstallResult)
    (htarget : target = EInstallResult.RESULT_FAILED ∨ target = EInstallResult.RESULT_CANCELED)
    (l : List IPluginInstaller) :
    ∀ r, (r = EInstallResult.RESULT_NOTATTEMPTED ∨ r = EInstallResult.RESULT_MANUALREQUESTED) →
      ∀ (before after : List IPluginInstaller) (x : IPluginInstaller),
        (installLoop s l r).calls = before ++ x :: after →
        x.installOutcome = InstallOutcome.returns target →
        after = [] ∧ (installLoop s l r).result = some false := by
  induction l with
  | nil => intro r _ before after x h; simp [installLoop] at h
  | cons installer rest ih =>
    intro r hr before after x h hx
    rcases installLoop_cons_cases s installer rest r hr with
      ⟨heq, _⟩ | ⟨_, _, _, ⟨res, heq, hstop⟩ | ⟨r2, hr2, hcont, heq⟩⟩
    · rw [heq] at h ⊢
      exact ih r hr before after x h hx
    · rw [heq] at h ⊢
      cases before with
      | nil =>
        simp only [List.nil_append, List.cons.injEq] at h
        obtain ⟨hix, hafter⟩ := h
        subst hix
        refine ⟨hafter.symm, ?_⟩
        rcases hstop with ⟨_, hres⟩ | ⟨_, hres⟩ | ⟨hout, _⟩ | ⟨hout, _⟩
        · exact hres
        · exact hres
        · rw [hx] at hout; rcases htarget with h1 | h1 <;> subst h1 <;> cases hout
        · rw [hx] at hout; rcases htarget with h1 | h1 <;> subst h1 <;> cases hout
      | cons b bs => simp at h
    · rw [heq] at h ⊢
      cases before with
      | nil =>
        simp only [List.nil_append, List.cons.injEq] at h
        obtain ⟨hix, _⟩ := h
        subst hix
        exfalso
        rcases hcont with hout | ⟨hout, _⟩
        · rw [hx] at hout
          rcases htarget with h1 | h1 <;> subst h1 <;> rcases hr2 with h2 | h2 <;> subst h2 <;>
            cases hout
        · rw [hx] at hout; cases hout
      | cons b bs =>
        simp only [List.cons_append, List.cons.injEq] at h
        exact ih r2 hr2 bs after x h.2 hx

/-- C4: when an installer that was called returns `RESULT_FAILED`, no installer
is called after it and the install has failed: `install` returns false and
`installArchive` returns `RESULT_FAILED`. -/
theorem install_failed_stops (s : Session) (installers before after : List IPluginInstaller)
    (x : IPluginInstaller) (hcalls : (install s installers).calls = before ++ x :: after)
    (hx : x.installOutcome = InstallOutcome.returns EInstallResult.RESULT_FAILED) :
    after = [] ∧ (install s installers).result = some false ∧
      installArchive s installers = some EInstallResult.RESULT_FAILED := by
  have hfmt : (!s.formatSupported) = false := by
    cases hf : s.formatSupported with
    | true => rfl
    | false => simp [install, hf] at hcalls
  have hrun : install s installers =
      installLoop s (sortInstallers installers) EInstallResult.RESULT_NOTATTEMPTED := by
    simp [install, hfmt]
  rw [hrun] at hcalls
  obtain ⟨h1, h2⟩ := installLoop_final s _ (Or.inl rfl) _ _ (Or.inl rfl) before after x hcalls hx
  refine ⟨h1, by rw [hrun]; exact h2, ?_⟩
  unfold installArchive
  rw [hrun, h2]

/-- Three installers of which the second one tried returns `RESULT_FAILED`: the
third is not called and the install fails. -/
theorem install_failed_stops_witness :
    (install openSession
      [simpleInstaller "a" 10 false (InstallOutcome.returns EInstallResult.RESULT_SUCCESS),
       simpleInstaller "b" 50 false (InstallOutcome.returns EInstallResult.RESULT_NOTATTEMPTED),
       simpleInstaller "c" 30 false (InstallOutcome.returns EInstallResult.RESULT_FAILED)]).calls =
      [simpleInstaller "b" 50 false (InstallOutcome.returns EInstallResult.RESULT_NOTATTEMPTED)] ++
        simpleInstaller "c" 30 false (InstallOutcome.returns EInstallResult.RESULT_FAILED) :: [] ∧
    installArchive openSession
      [simpleInstaller "a" 10 false (InstallOutcome.returns EInstallResult.RESULT_SUCCESS),
       simpleInstaller "b" 50 false (InstallOutcome.returns EInstallResult.RESULT_NOTATTEMPTED),
       simpleInstaller "c" 30 false (InstallOutcome.returns EInstallResult.RESULT_FAILED)] =
      some EInstallResult.RESULT_FAILED :=
  ⟨by decide,
    (install_failed_stops openSession
      [simpleInstaller "a" 10 false (InstallOutcome.returns EInstallResult.RESULT_SUCCESS),
       simpleInstaller "b" 50 false (InstallOutcome.returns EInstallResult.RESULT_NOTATTEMPTED),
       simpleInstaller "c" 30 false (InstallOutcome.returns EInstallResult.RESULT_FAILED)]
      [simpleInstaller "b" 50 false (InstallOutcome.returns EInstallResult.RESULT_NOTATTEMPTED)]
      [] (simpleInstaller "c" 30 false (InstallOutcome.returns EInstallResult.RESULT_FAILED))
      (by decide) rfl).2.2⟩

/-- C5 (as amended): when an installer that was called returns
`RESULT_CANCELED`, no installer is called after it and the run ends at once;
what is reported is the same as for a failure: `install` returns false and
`installArchive` returns `RESULT_FAILED`. -/
theorem install_canceled_stops (s : Session) (installers before after : List IPluginInstaller)
    (x : IPluginInstaller) (hcalls : (install s installers).calls = before ++ x :: after)
    (hx : x.installOutcome = InstallOutcome.returns EInstallResult.RESULT_CANCELED) :
    after = [] ∧ (install s installers).result = some false ∧
      installArchive s installers = some EInstallResult.RESULT_FAILED := by
  have hfmt : (!s.formatSupported) = false := by
    cases hf : s.formatSupported with
    | true => rfl
    | false => simp [install, hf] at hcalls
  have hrun : install s installers =
      installLoop s (sortInstallers installers) EInstallResult.RESULT_NOTATTEMPTED := by
    simp [install, hfmt]
  rw [hrun] at hcalls
  obtain ⟨h1, h2⟩ := installLoop_final s _ (Or.inr rfl) _ _ (Or.inl rfl) before after x hcalls hx
  refine ⟨h1, by rw [hrun]; exact h2, ?_⟩
  unfold installArchive
  rw [hrun, h2]

/-- Two installers of which the first one tried returns `RESULT_CANCELED`: the
other is not called and `installArchive` returns `RESULT_FAILED`. -/
theorem install_canceled_stops_witness :
    (install openSession
      [simpleInstaller "a" 10 false (InstallOutcome.returns EInstallResult.RESULT_SUCCESS),
       simpleInstaller "b" 50 false (InstallOutcome.returns EInstallResult.RESULT_CANCELED)]).calls =
      [] ++ simpleInstaller "b" 50 false (InstallOutcome.returns EInstallResult.RESULT_CANCELED) ::
        [] ∧
    installArchive openSession
      [simpleInstaller "a" 10 false (InstallOutcome.returns EInstallResult.RESULT_SUCCESS),
       simpleInstaller "b" 50 false (InstallOutcome.returns EInstallResult.RESULT_CANCELED)] =
      some EInstallResult.RESULT_FAILED :=
  ⟨by decide,
    (install_canceled_stops openSession
      [simpleInstaller "a" 10 false (InstallOutcome.returns EInstallResult.RESULT_SUCCESS),
       simpleInstaller "b" 50 false (InstallOutcome.returns EInstallResult.RESULT_CANCELED)]
      [] [] (simpleInstaller "b" 50 false (InstallOutcome.returns EInstallResult.RESULT_CANCELED))
      (by decide) rfl).2.2⟩

/-- C5 (as stated) fails: a run whose only installer returns `RESULT_CANCELED`
is reported by `installArchive` as `RESULT_FAILED`, not as
`RESULT_CANCELED`, and `install` returns for it what it returns when the
installer fails. -/
theorem install_canceled_reported_failed :
    (install openSession
      [simpleInstaller "a" 10 false (InstallOutcome.returns EInstallResult.RESULT_CANCELED)]).calls =
      [simpleInstaller "a" 10 false (InstallOutcome.returns EInstallResult.RESULT_CANCELED)] ∧
    installArchive openSession
      [simpleInstaller "a" 10 false (InstallOutcome.returns EInstallResult.RESULT_CANCELED)] =
      some EInstallResult.RESULT_FAILED ∧
    installArchive openSession
      [simpleInstaller "a" 10 false (InstallOutcome.returns EInstallResult.RESULT_CANCELED)] ≠
      some EInstallResult.RESULT_CANCELED ∧
    (install openSession
      [simpleInstaller "a" 10 false (InstallOutcome.returns EInstallResult.RESULT_CANCELED)]).result =
    (install openSession
      [simpleInstaller "a" 10 false (InstallOutcome.returns EInstallResult.RESULT_FAILED)]).result := by
  decide

/-- After a call that returns `RESULT_MANUALREQUESTED` the loop goes on with the
installers that follow in the list, `installResult` being
`RESULT_MANUALREQUESTED`. -/
theorem installLoop_after_manual (s : Session) (l : List IPluginInstaller) :
    ∀ r, (r = EInstallResult.RESULT_NOTATTEMPTED ∨ r = EInstallResult.RESULT_MANUALREQUESTED) →
      ∀ (before after : List IPluginInstaller) (x : IPluginInstaller),
        (installLoop s l r).calls = before ++ x :: after →
        x.installOutcome = InstallOutcome.returns EInstallResult.RESULT_MANUALREQUESTED →
        ∃ l1 l2, l = l1 ++ x :: l2 ∧
          after = (installLoop s l2 EInstallResult.RESULT_MANUALREQUESTED).calls := by
  induction l with
  | nil => intro r _ before after x h; simp [installLoop] at h
  | cons installer rest ih =>
    intro r hr before after x h hx
    rcases installLoop_cons_cases s installer rest r hr with
      ⟨heq, _⟩ | ⟨_, _, _, ⟨res, heq, hstop⟩ | ⟨r2, hr2, hcont, heq⟩⟩
    · rw [heq] at h
      obtain ⟨l1, l2, h1, h2⟩ := ih r hr before after x h hx
      exact ⟨installer :: l1, l2, by rw [h1]; rfl, h2⟩
    · rw [heq] at h
      cases before with
      | nil =>
        simp only [List.nil_append, List.cons.injEq] at h
        obtain ⟨hix, _⟩ := h
        subst hix
        exfalso
        rcases hstop with ⟨hout, _⟩ | ⟨hout, _⟩ | ⟨hout, _⟩ | ⟨hout, _⟩ <;>
          (rw [hx] at hout; cases hout)
      | cons b bs => simp at h
    · rw [heq] at h
      cases before with
      | nil =>
        simp only [List.nil_append, List.cons.injEq] at h
        obtain ⟨hix, hafter⟩ := h
        subst hix
        rcases hcont with hout | ⟨hout, _⟩
        · rw [hx] at hout
          cases hout
          exact ⟨[], rest, rfl, hafter.symm⟩
        · rw [hx] at hout; cases hout
      | cons b bs =>
        simp only [List.cons_append, List.cons.injEq] at h
        obtain ⟨l1, l2, h1, h2⟩ := ih r2 hr2 bs after x h.2 hx
        exact ⟨installer :: l1, l2, by rw [h1]; rfl, h2⟩

/-- While `installResult` is `RESULT_MANUALREQUESTED`, the next installer
called is the first active manual installer that supports the archive. -/
theorem installLoop_manual_head (s : Session) (l : List IPluginInstaller) :
    (installLoop s l EInstallResult.RESULT_MANUALREQUESTED).calls.head? =
      (l.filter (fun y => y.isActive && y.isManualInstaller && isInvoked s y)).head? := by
  induction l with
  | nil => simp [installLoop]
  | cons installer rest ih =>
    rcases installLoop_cons_cases s installer rest _ (Or.inr rfl) with
      ⟨heq, hwhy⟩ | ⟨hact, hman, hinv, ⟨res, heq, _⟩ | ⟨r2, _, _, heq⟩⟩
    · have hdrop : (installer.isActive && installer.isManualInstaller &&
          isInvoked s installer) = false := by
        rcases hwhy with h | ⟨_, h⟩ | h <;> simp [h]
      rw [heq, ih, List.filter_cons_of_neg (by simp [hdrop])]
    · rw [heq, List.filter_cons_of_pos (by simp [hact, hman rfl, hinv])]
      rfl
    · rw [heq, List.filter_cons_of_pos (by simp [hact, hman rfl, hinv])]
      rfl

/-- C6 (as amended): when an installer `x` that was called returns
`RESULT_MANUALREQUESTED`, the loop does not start again: it goes on with the
installers `l2` that follow `x` in the sorted list, with `installResult`
being `RESULT_MANUALREQUESTED`, and every later call is a call of an active
installer among them; the next installer called, if there is one, is the
first of them that is active, flagged manual and supports the archive, so no
installer that is not manual is called while the result is still
`RESULT_MANUALREQUESTED`. -/
theorem install_manual_requested (s : Session)
    (installers before after : List IPluginInstaller) (x : IPluginInstaller)
    (hcalls : (install s installers).calls = before ++ x :: after)
    (hx : x.installOutcome = InstallOutcome.returns EInstallResult.RESULT_MANUALREQUESTED) :
    ∃ l1 l2, sortInstallers installers = l1 ++ x :: l2 ∧
      after = (installLoop s l2 EInstallResult.RESULT_MANUALREQUESTED).calls ∧
      after.Sublist (l2.filter (fun y => y.isActive)) ∧
      after.head? =
        (l2.filter (fun y => y.isActive && y.isManualInstaller && isInvoked s y)).head? ∧
      (∀ y, after.head? = some y → y.isManualInstaller = true) := by
  have hfmt : (!s.formatSupported) = false := by
    cases hf : s.formatSupported with
    | true => rfl
    | false => simp [install, hf] at hcalls
  have hrun : install s installers =
      installLoop s (sortInstallers installers) EInstallResult.RESULT_NOTATTEMPTED := by
    simp [install, hfmt]
  rw [hrun] at hcalls
  obtain ⟨l1, l2, h1, h2⟩ :=
    installLoop_after_manual s _ _ (Or.inl rfl) before after x hcalls hx
  have h3 : after.head? =
      (l2.filter (fun y => y.isActive && y.isManualInstaller && isInvoked s y)).head? := by
    rw [h2]; exact installLoop_manual_head s l2
  refine ⟨l1, l2, h1, h2, ?_, h3, ?_⟩
  · rw [h2]; exact installLoop_calls_sublist s l2 _ (Or.inr rfl)
  · intro y hy
    rw [h3] at hy
    have hmem := List.mem_of_mem_head? hy
    have := List.mem_filter.mp hmem
    simp only [Bool.and_eq_true] at this
    exact this.2.1.2

/-- A simple installer asks for a manual installation, a manual installer of
lower priority follows: it is the next one called. -/
theorem install_manual_requested_witness :
    (install openSession
      [simpleInstaller "m" 20 true (InstallOutcome.returns EInstallResult.RESULT_NOTATTEMPTED),
       simpleInstaller "s" 30 false
         (InstallOutcome.returns EInstallResult.RESULT_MANUALREQUESTED)]).calls =
      [] ++ simpleInstaller "s" 30 false
          (InstallOutcome.returns EInstallResult.RESULT_MANUALREQUESTED) ::
        [simpleInstaller "m" 20 true
          (InstallOutcome.returns EInstallResult.RESULT_NOTATTEMPTED)] ∧
    ∃ l1 l2, sortInstallers
      [simpleInstaller "m" 20 true (InstallOutcome.returns EInstallResult.RESULT_NOTATTEMPTED),
       simpleInstaller "s" 30 false
         (InstallOutcome.returns EInstallResult.RESULT_MANUALREQUESTED)] =
        l1 ++ simpleInstaller "s" 30 false
          (InstallOutcome.returns EInstallResult.RESULT_MANUALREQUESTED) :: l2 ∧
      [simpleInstaller "m" 20 true (InstallOutcome.returns EInstallResult.RESULT_NOTATTEMPTED)] =
        (installLoop openSession l2 EInstallResult.RESULT_MANUALREQUESTED).calls := by
  refine ⟨by decide, ?_⟩
  obtain ⟨l1, l2, h1, h2, _⟩ := install_manual_requested openSession
    [simpleInstaller "m" 20 true (InstallOutcome.returns EInstallResult.RESULT_NOTATTEMPTED),
     simpleInstaller "s" 30 false (InstallOutcome.returns EInstallResult.RESULT_MANUALREQUESTED)]
    []
    [simpleInstaller "m" 20 true (InstallOutcome.returns EInstallResult.RESULT_NOTATTEMPTED)]
    (simpleInstaller "s" 30 false (InstallOutcome.returns EInstallResult.RESULT_MANUALREQUESTED))
    (by decide) rfl
  exact ⟨l1, l2, h1, h2⟩

/-- C6 (as stated) fails. First run: the manual installer `m` has the higher
priority, is called first and declines; `s` then asks for a manual
installation and the loop ends, `m` is not tried again. Second run: after the
request of `s` the manual installer `m` declines, which resets the result, and
the installer `t`, which is not manual, is called. -/
theorem install_manual_no_restart :
    (install openSession
      [simpleInstaller "m" 50 true (InstallOutcome.returns EInstallResult.RESULT_NOTATTEMPTED),
       simpleInstaller "s" 30 false
         (InstallOutcome.returns EInstallResult.RESULT_MANUALREQUESTED)]).calls =
      [simpleInstaller "m" 50 true (InstallOutcome.returns EInstallResult.RESULT_NOTATTEMPTED),
       simpleInstaller "s" 30 false
         (InstallOutcome.returns EInstallResult.RESULT_MANUALREQUESTED)] ∧
    isInvoked openSession
      (simpleInstaller "m" 50 true
        (InstallOutcome.returns EInstallResult.RESULT_NOTATTEMPTED)) = true ∧
    (install openSession
      [simpleInstaller "s" 30 false (InstallOutcome.returns EInstallResult.RESULT_MANUALREQUESTED),
       simpleInstaller "m" 20 true (InstallOutcome.returns EInstallResult.RESULT_NOTATTEMPTED),
       simpleInstaller "t" 10 false
         (InstallOutcome.returns EInstallResult.RESULT_NOTATTEMPTED)]).calls =
      [simpleInstaller "s" 30 false (InstallOutcome.returns EInstallResult.RESULT_MANUALREQUESTED),
       simpleInstaller "m" 20 true (InstallOutcome.returns EInstallResult.RESULT_NOTATTEMPTED),
       simpleInstaller "t" 10 false (InstallOutcome.returns EInstallResult.RESULT_NOTATTEMPTED)] ∧
    (simpleInstaller "t" 10 false
      (InstallOutcome.returns EInstallResult.RESULT_NOTATTEMPTED)).isManualInstaller = false := by
  decide

/-- C7, the failing run: the archive could not be opened, the only installer is
an active custom installer that supports the file and its suffix; its
`install` is called and returns `RESULT_SUCCESS`, and `install` returns
false, `installArchive` returns `RESULT_FAILED`. With the archive opened
the same installer makes `install` return true. -/
theorem install_custom_success_without_tree :
    closedSession.filesTree = none ∧
    isInvoked closedSession
      (customInstaller "c" 10 (InstallOutcome.returns EInstallResult.RESULT_SUCCESS)) = true ∧
    install closedSession
      [customInstaller "c" 10 (InstallOutcome.returns EInstallResult.RESULT_SUCCESS)] =
      ⟨some false, [customInstaller "c" 10 (InstallOutcome.returns EInstallResult.RESULT_SUCCESS)]⟩ ∧
    installArchive closedSession
      [customInstaller "c" 10 (InstallOutcome.returns EInstallResult.RESULT_SUCCESS)] =
      some EInstallResult.RESULT_FAILED ∧
    install openSession
      [customInstaller "c" 10 (InstallOutcome.returns EInstallResult.RESULT_SUCCESS)] =
      ⟨some true, [customInstaller "c" 10 (InstallOutcome.returns EInstallResult.RESULT_SUCCESS)]⟩ := by
  decide

/-! ## Properties of the archive structure classifier -/

/-- The loop of `getSimpleArchiveBase` written with the accessors of the code:
the top layer test, then `numLeafs() == 0 && numNodes() == 1` and the move
to `*nodesBegin()`. -/
theorem getSimpleArchiveBase_eq (tester : InstallationTester) (t : Node) :
    getSimpleArchiveBase tester t =
      if isSimpleArchiveTopLayer tester t false = true then some t
      else if t.numLeafs = 0 ∧ t.numNodes = 1 then
        match t.nodes.head? with
        | some c => getSimpleArchiveBase tester c
        | none => none
      else none := by
  cases t with
  | mk d nodes leafs =>
    cases nodes with
    | nil => simp [getSimpleArchiveBase, Node.numLeafs, Node.numNodes, Node.nodes, Node.leafs]
    | cons c cs => simp [getSimpleArchiveBase, Node.numLeafs, Node.numNodes, Node.nodes, Node.leafs]

/-- The result of `getSimpleArchiveBase`, read along the descent: a node that
is returned is reached by the descent and has a sensible top layer; when
nothing is returned the descent reaches a node without a sensible top layer
that is not a wrapper of a single directory. -/
theorem getSimpleArchiveBase_descent (tester : InstallationTester) :
    ∀ t : Node,
      (∀ n, getSimpleArchiveBase tester t = some n →
        WrapperDescent tester t n ∧ isSimpleArchiveTopLayer tester n false = true) ∧
      (getSimpleArchiveBase tester t = none →
        ∃ n, WrapperDescent tester t n ∧ isSimpleArchiveTopLayer tester n false = false ∧
          ¬ (n.numLeafs = 0 ∧ n.numNodes = 1))
  | Node.mk d nodes leafs => by
    unfold getSimpleArchiveBase
    by_cases htop : isSimpleArchiveTopLayer tester (Node.mk d nodes leafs) false = true
    · simp only [htop, if_true]
      refine ⟨fun n hn => ?_, fun h => by cases h⟩
      cases hn
      exact ⟨WrapperDescent.start _, htop⟩
    · have htop2 : isSimpleArchiveTopLayer tester (Node.mk d nodes leafs) false = false := by
        simpa using htop
      simp only [htop, if_false]
      by_cases hsingle : leafs.length = 0 ∧ nodes.length = 1
      · simp only [hsingle, and_self, if_true]
        match nodes, hsingle, htop2 with
        | [c], hsingle, htop2 =>
          have ih := getSimpleArchiveBase_descent tester c
          simp only []
          refine ⟨fun n hn => ?_, fun h => ?_⟩
          · exact ⟨WrapperDescent.step htop2 hsingle.1 rfl (ih.1 n hn).1, (ih.1 n hn).2⟩
          · obtain ⟨n, h1, h2, h3⟩ := ih.2 h
            exact ⟨n, WrapperDescent.step htop2 hsingle.1 rfl h1, h2, h3⟩
      · rw [if_neg hsingle]
        refine ⟨fun n hn => (by cases hn), fun _ => ?_⟩
        exact ⟨_, WrapperDescent.start _, htop2, hsingle⟩

/-- C8: when the root has a sensible top layer (some child directory node has a
recognised top-level name or some leaf has a recognised top-level suffix),
`getSimpleArchiveBase` returns the root itself, whatever else the root
holds; the root with the children `data` and `fomod`, `data` being
recognised, is returned as it is. -/
theorem getSimpleArchiveBase_of_top (tester : InstallationTester) (t : Node)
    (htop : isSimpleArchiveTopLayer tester t false = true) :
    getSimpleArchiveBase tester t = some t ∧
    getSimpleArchiveBase dataTester (createFilesTree [dirEntry "data", dirEntry "fomod"]) =
      some (createFilesTree [dirEntry "data", dirEntry "fomod"]) := by
  constructor
  · rw [getSimpleArchiveBase_eq, if_pos htop]
  · decide

/-- The root with the children `data` and `fomod` and the file `readme.txt`
has a sensible top layer and is returned. -/
theorem getSimpleArchiveBase_of_top_witness :
    isSimpleArchiveTopLayer dataTester
      (createFilesTree [dirEntry "data", dirEntry "fomod", fileEntry "readme.txt"]) false = true ∧
    getSimpleArchiveBase dataTester
      (createFilesTree [dirEntry "data", dirEntry "fomod", fileEntry "readme.txt"]) =
      some (createFilesTree [dirEntry "data", dirEntry "fomod", fileEntry "readme.txt"]) :=
  ⟨by decide,
    (getSimpleArchiveBase_of_top dataTester
      (createFilesTree [dirEntry "data", dirEntry "fomod", fileEntry "readme.txt"])
      (by decide)).1⟩

/-- C9: when the root has no sensible top layer, no leafs and exactly one child
directory node `W`, the result of `getSimpleArchiveBase` for the tree is its
result for `W`; when `W` has a sensible top layer the result is `W`, after
one step. -/
theorem getSimpleArchiveBase_of_wrapper (tester : InstallationTester) (t W : Node)
    (htop : isSimpleArchiveTopLayer tester t false = false)
    (hleafs : t.numLeafs = 0) (hnodes : t.nodes = [W]) :
    getSimpleArchiveBase tester t = getSimpleArchiveBase tester W ∧
    (isSimpleArchiveTopLayer tester W false = true → getSimpleArchiveBase tester t = some W) := by
  have hstep : getSimpleArchiveBase tester t = getSimpleArchiveBase tester W := by
    rw [getSimpleArchiveBase_eq tester t, if_neg (by simp [htop]),
      if_pos ⟨hleafs, by simp [Node.numNodes, hnodes]⟩, hnodes]
    rfl
  refine ⟨hstep, fun hW => ?_⟩
  rw [hstep, getSimpleArchiveBase_eq, if_pos hW]

/-- The root with the single child `ModXYZ` that holds `data` and `meta.ini`:
the node `ModXYZ` is returned. -/
theorem getSimpleArchiveBase_of_wrapper_witness :
    isSimpleArchiveTopLayer dataTester
      (createFilesTree [fileEntry "ModXYZ\\data\\a.txt", fileEntry "ModXYZ\\meta.ini"]) false =
      false ∧
    (createFilesTree [fileEntry "ModXYZ\\data\\a.txt", fileEntry "ModXYZ\\meta.ini"]).numLeafs =
      0 ∧
    (createFilesTree [fileEntry "ModXYZ\\data\\a.txt", fileEntry "ModXYZ\\meta.ini"]).nodes =
      [Node.mk ⟨"ModXYZ".toList, -1⟩ [Node.mk ⟨"data".toList, -1⟩ [] [⟨"a.txt".toList, 0⟩]]
        [⟨"meta.ini".toList, 1⟩]] ∧
    getSimpleArchiveBase dataTester
      (createFilesTree [fileEntry "ModXYZ\\data\\a.txt", fileEntry "ModXYZ\\meta.ini"]) =
      some (Node.mk ⟨"ModXYZ".toList, -1⟩ [Node.mk ⟨"data".toList, -1⟩ [] [⟨"a.txt".toList, 0⟩]]
        [⟨"meta.ini".toList, 1⟩]) :=
  ⟨by decide, by decide, by decide,
    (getSimpleArchiveBase_of_wrapper dataTester
      (createFilesTree [fileEntry "ModXYZ\\data\\a.txt", fileEntry "ModXYZ\\meta.ini"])
      (Node.mk ⟨"ModXYZ".toList, -1⟩ [Node.mk ⟨"data".toList, -1⟩ [] [⟨"a.txt".toList, 0⟩]]
        [⟨"meta.ini".toList, 1⟩])
      (by decide) (by decide) (by decide)).2 (by decide)⟩

theorem getSimpleArchiveBase_none_of_descent (tester : InstallationTester) {t n : Node}
    (hd : WrapperDescent tester t n) (htop : isSimpleArchiveTopLayer tester n false = false)
    (hn : ¬ (n.numLeafs = 0 ∧ n.numNodes = 1)) : getSimpleArchiveBase tester t = none := by
  induction hd with
  | start => rw [getSimpleArchiveBase_eq, if_neg (by simp [htop]), if_neg hn]
  | step ht hleafs hnodes _ ih =>
    rw [getSimpleArchiveBase_eq, if_neg (by simp [ht]),
      if_pos ⟨hleafs, by simp [Node.numNodes, hnodes]⟩, hnodes]
    exact ih htop hn

/-- C10: `getSimpleArchiveBase` is a total function of the tree, so the loop
ends for every tree; it returns nothing exactly when the descent through
wrapper directories reaches a node that has no sensible top layer and does
not consist of exactly one child directory node and no leafs; a node that is
returned is reached by the descent and has a sensible top layer. -/
theorem getSimpleArchiveBase_result (tester : InstallationTester) (t : Node) :
    (∃ res, getSimpleArchiveBase tester t = res) ∧
    (getSimpleArchiveBase tester t = none ↔
      ∃ n, WrapperDescent tester t n ∧ isSimpleArchiveTopLayer tester n false = false ∧
        ¬ (n.numLeafs = 0 ∧ n.numNodes = 1)) ∧
    (∀ n, getSimpleArchiveBase tester t = some n →
      WrapperDescent tester t n ∧ isSimpleArchiveTopLayer tester n false = true) := by
  refine ⟨⟨_, rfl⟩, ⟨(getSimpleArchiveBase_descent tester t).2, ?_⟩,
    (getSimpleArchiveBase_descent tester t).1⟩
  rintro ⟨n, hd, htop, hn⟩
  exact getSimpleArchiveBase_none_of_descent tester hd htop hn

/-- A wrapper directory around two directories without a recognised name:
nothing is returned, the descent ends at the wrapper's child. -/
theorem getSimpleArchiveBase_result_witness :
    getSimpleArchiveBase dataTester
      (createFilesTree [fileEntry "wrap\\x\\a.txt", fileEntry "wrap\\y\\b.txt"]) = none ∧
    ∃ n, WrapperDescent dataTester
        (createFilesTree [fileEntry "wrap\\x\\a.txt", fileEntry "wrap\\y\\b.txt"]) n ∧
      isSimpleArchiveTopLayer dataTester n false = false ∧
      ¬ (n.numLeafs = 0 ∧ n.numNodes = 1) :=
  ⟨by decide,
    (getSimpleArchiveBase_result dataTester
      (createFilesTree [fileEntry "wrap\\x\\a.txt", fileEntry "wrap\\y\\b.txt"])).2.1.mp
      (by decide)⟩

/-! ## Properties of the backup names -/

theorem digitChar_value (k : Nat) (hk : k < 10) : (Nat.digitChar k).toNat - 48 = k := by
  interval_cases k <;> rfl

theorem toDigitsCore_value (fuel : Nat) :
    ∀ (n : Nat) (acc : List Char), n < fuel →
      (Nat.toDigitsCore 10 fuel n acc).foldl (fun a c => 10 * a + (c.toNat - 48)) 0 =
        acc.foldl (fun a c => 10 * a + (c.toNat - 48)) n := by
  induction fuel with
  | zero => intro n acc h; omega
  | succ fuel ih =>
    intro n acc h
    rw [Nat.toDigitsCore]
    have hd := digitChar_value (n % 10) (Nat.mod_lt _ (by omega))
    by_cases h0 : n / 10 = 0
    · simp only [h0, if_true, List.foldl_cons, Nat.mul_zero, Nat.zero_add, hd]
      congr 1
      omega
    · simp only [h0, if_false]
      rw [ih (n / 10) _ (by omega)]
      simp only [List.foldl_cons, hd]
      congr 1
      omega

theorem toDigits_injective (n m : Nat) (h : Nat.toDigits 10 n = Nat.toDigits 10 m) : n = m := by
  have h1 := toDigitsCore_value (n + 1) n [] (by omega)
  have h2 := toDigitsCore_value (m + 1) m [] (by omega)
  unfold Nat.toDigits at h
  rw [h] at h1
  rw [h1] at h2
  simpa using h2

theorem number_natCast (n : Nat) : number (n : Int) = Nat.toDigits 10 n := by
  simp [number]

theorem number_natCast_injective (n m : Nat) (h : number (n : Int) = number (m : Int)) :
    n = m := by
  rw [number_natCast, number_natCast] at h
  exact toDigits_injective n m h

theorem generateBackupNameLoop_some (dirs : List QString) (backupName : QString) (fuel : Nat) :
    ∀ (idx : Nat) (name : QString), generateBackupNameLoop dirs backupName fuel idx = some name →
      ∃ n, idx ≤ n ∧ n < idx + fuel ∧ name = backupName ++ number (n : Int) ∧ name ∉ dirs ∧
        ∀ m, idx ≤ m → m < n → backupName ++ number (m : Int) ∈ dirs := by
  induction fuel with
  | zero => intro idx name h; simp [generateBackupNameLoop] at h
  | succ fuel ih =>
    intro idx name h
    rw [generateBackupNameLoop] at h
    by_cases hex : backupName ++ number (idx : Int) ∈ dirs
    · rw [if_pos hex] at h
      obtain ⟨n, h1, h2, h3, h4, h5⟩ := ih (idx + 1) name h
      refine ⟨n, by omega, by omega, h3, h4, ?_⟩
      intro m hm1 hm2
      by_cases hmi : m = idx
      · rw [hmi]; exact hex
      · exact h5 m (by omega) hm2
    · rw [if_neg hex] at h
      cases h
      exact ⟨idx, le_refl _, by omega, rfl, hex, fun m h1 h2 => by omega⟩

theorem generateBackupNameLoop_none (dirs : List QString) (backupName : QString) (fuel : Nat) :
    ∀ (idx : Nat), generateBackupNameLoop dirs backupName fuel idx = none →
      ∀ k, k < fuel → backupName ++ number ((idx + k : Nat) : Int) ∈ dirs := by
  induction fuel with
  | zero => intro idx _ k hk; omega
  | succ fuel ih =>
    intro idx h k hk
    rw [generateBackupNameLoop] at h
    by_cases hex : backupName ++ number (idx : Int) ∈ dirs
    · rw [if_pos hex] at h
      cases k with
      | zero => simpa using hex
      | succ k =>
        have := ih (idx + 1) h k (by omega)
        have he : idx + 1 + k = idx + (k + 1) := by omega
        rw [he] at this
        exact this
    · rw [if_neg hex] at h
      cases h

/-- The loop of `generateBackupName` ends within as many rounds as there are
directories, and one more: the names it tries are pairwise different, so not
all of them can exist. -/
theorem generateBackupNameLoop_ne_none (dirs : List QString) (backupName : QString) (idx : Nat) :
    generateBackupNameLoop dirs backupName (dirs.length + 1) idx ≠ none := by
  intro h
  have hall := generateBackupNameLoop_none dirs backupName _ idx h
  have hnodup : ((List.range (dirs.length + 1)).map
      (fun k => backupName ++ number ((idx + k : Nat) : Int))).Nodup := by
    refine (List.nodup_range _).map ?_
    intro a b hab
    have := number_natCast_injective _ _ (List.append_cancel_left hab)
    omega
  have hsub : (List.range (dirs.length + 1)).map
      (fun k => backupName ++ number ((idx + k : Nat) : Int)) ⊆ dirs := by
    intro x hx
    obtain ⟨k, hk, rfl⟩ := List.mem_map.mp hx
    exact hall k (List.mem_range.mp hk)
  have := (hnodup.subperm hsub).length_le
  simp at this

/-- C11: for every directory name and every finite set of existing directories,
`generateBackupName` returns a name; the name is the directory name followed
by `_backup` when that directory does not exist, and otherwise the directory
name followed by `_backup` and the smallest number from 2 on for which the
directory does not exist; the name returned never names an existing
directory. `Target_backup` is followed by `Target_backup2` and
`Target_backup3`. -/
theorem generateBackupName_result (dirs : List QString) (directoryName : QString) :
    (∃ name, generateBackupName dirs directoryName = some name ∧ name ∉ dirs ∧
      (directoryName ++ "_backup".toList ∉ dirs → name = directoryName ++ "_backup".toList) ∧
      (directoryName ++ "_backup".toList ∈ dirs →
        ∃ n : Nat, 2 ≤ n ∧ n ≤ dirs.length + 2 ∧
          name = directoryName ++ "_backup".toList ++ number (n : Int) ∧
          ∀ m : Nat, 2 ≤ m → m < n →
            directoryName ++ "_backup".toList ++ number (m : Int) ∈ dirs)) ∧
    generateBackupName ["Target".toList] "Target".toList = some "Target_backup".toList ∧
    generateBackupName ["Target".toList, "Target_backup".toList] "Target".toList =
      some "Target_backup2".toList ∧
    generateBackupName ["Target".toList, "Target_backup".toList, "Target_backup2".toList]
      "Target".toList = some "Target_backup3".toList := by
  refine ⟨?_, by decide, by decide, by decide⟩
  unfold generateBackupName
  by_cases hex : directoryName ++ "_backup".toList ∈ dirs
  · rw [if_pos hex]
    cases hloop : generateBackupNameLoop dirs (directoryName ++ "_backup".toList)
        (dirs.length + 1) 2 with
    | none => exact absurd hloop (generateBackupNameLoop_ne_none dirs _ 2)
    | some name =>
      obtain ⟨n, h1, h2, h3, h4, h5⟩ := generateBackupNameLoop_some dirs _ _ 2 name hloop
      exact ⟨name, rfl, h4, fun h => absurd hex h, fun _ => ⟨n, h1, by omega, h3, h5⟩⟩
  · rw [if_neg hex]
    exact ⟨_, rfl, hex, fun _ => rfl, fun h => absurd h hex⟩

/-- With `Mods/Target`, its backup and its second backup in place, the third
backup is numbered 3. -/
theorem generateBackupName_result_witness :
    ∃ n : Nat, 2 ≤ n ∧ n ≤ 5 ∧
      generateBackupName
        ["Mods/Target".toList, "Mods/Target_backup".toList, "Mods/Target_backup2".toList]
        "Mods/Target".toList =
        some ("Mods/Target".toList ++ "_backup".toList ++ number (n : Int)) := by
  obtain ⟨name, h1, _, _, h4⟩ := (generateBackupName_result
    ["Mods/Target".toList, "Mods/Target_backup".toList, "Mods/Target_backup2".toList]
    "Mods/Target".toList).1
  obtain ⟨n, hn1, hn2, hn3, _⟩ := h4 (by decide)
  exact ⟨n, hn1, hn2, by rw [h1, hn3]⟩

/-! ## Properties of the overwrite resolution -/

theorem getLast?_cons_of_getLast? {α : Type} (x : α) {l : List α} {y : α}
    (h : l.getLast? = some y) : (x :: l).getLast? = some y := by
  cases l with
  | nil => simp at h
  | cons z zs => rw [List.getLast?_cons_cons]; exact h

theorem replaceOps_tail_no_delete (r : OverwriteRound) (targetDirectory d : QString)
    (pre post : List FsOp)
    (h : replaceOps r targetDirectory = pre ++ FsOp.shellDelete d :: post) :
    pre = [] ∧ d = targetDirectory := by
  unfold replaceOps at h
  cases pre with
  | nil =>
    simp only [List.nil_append, List.cons.injEq, FsOp.shellDelete.injEq] at h
    exact ⟨rfl, h.1.symm⟩
  | cons x pre2 =>
    exfalso
    simp only [List.cons_append, List.cons.injEq] at h
    have hmem : FsOp.shellDelete d ∈
        (if r.mkdirOk then [FsOp.mkdir targetDirectory]
          else [FsOp.mkdir targetDirectory, FsOp.mkdir targetDirectory]) ++
        (if r.restoreOk then [FsOp.writeSettings (targetDirectory ++ "/meta.ini".toList)]
          else []) := by
      rw [h.2]; simp
    cases h1 : r.mkdirOk <;> cases h2 : r.restoreOk <;> simp [h1, h2] at hmem

theorem replaceOps_no_copy (r : OverwriteRound) (targetDirectory s t : QString) (ok : Bool) :
    FsOp.copyDir s t ok ∉ replaceOps r targetDirectory := by
  unfold replaceOps
  cases h1 : r.mkdirOk <;> cases h2 : r.restoreOk <;> simp

/-- A failed copy in the rest of a round: the property passes from the loop to
the action that follows the backup. -/
theorem overwriteAction_failed_copy (m_ModsDirectory : QString)
    (loop : List QString → QString → OverwriteRun)
    (hloop : ∀ dirs target s t, FsOp.copyDir s t false ∈ (loop dirs target).ops →
      (loop dirs target).result = some false ∧
      (loop dirs target).ops.getLast? = some (FsOp.copyDir s t false) ∧
      ∀ op ∈ (loop dirs target).ops, op.isDestructive = false)
    (r : OverwriteRound) (dirs : List QString) (targetDirectory s t : QString)
    (h : FsOp.copyDir s t false ∈
      (overwriteAction m_ModsDirectory loop r dirs targetDirectory).ops) :
    (overwriteAction m_ModsDirectory loop r dirs targetDirectory).result = some false ∧
    (overwriteAction m_ModsDirectory loop r dirs targetDirectory).ops.getLast? =
      some (FsOp.copyDir s t false) ∧
    ∀ op ∈ (overwriteAction m_ModsDirectory loop r dirs targetDirectory).ops,
      op.isDestructive = false := by
  unfold overwriteAction at h ⊢
  cases hact : r.action with
  | ACT_NONE => simp only [hact] at h ⊢; exact hloop _ _ _ _ h
  | ACT_RENAME =>
    simp only [hact] at h ⊢
    cases hn : r.nameGiven with
    | false => simp only [hn, Bool.false_eq_true, if_false] at h ⊢; exact hloop _ _ _ _ h
    | true =>
      simp only [hn, if_true] at h ⊢
      cases hv : r.validName with
      | none => simp [hv] at h
      | some modName => simp only [hv] at h ⊢; exact hloop _ _ _ _ h
  | ACT_REPLACE =>
    simp only [hact] at h
    exact absurd h (replaceOps_no_copy _ _ _ _ _)
  | ACT_MERGE => simp [hact] at h

/-- A failed copy of the backup ends the run with failure, as its last
operation, and nothing has been deleted, created or written in the run. -/
theorem testOverwriteLoop_failed_copy (m_ModsDirectory : QString) (rounds : List OverwriteRound) :
    ∀ (dirs : List QString) (target s t : QString),
      FsOp.copyDir s t false ∈ (testOverwriteLoop m_ModsDirectory rounds dirs target).ops →
      (testOverwriteLoop m_ModsDirectory rounds dirs target).result = some false ∧
      (testOverwriteLoop m_ModsDirectory rounds dirs target).ops.getLast? =
        some (FsOp.copyDir s t false) ∧
      ∀ op ∈ (testOverwriteLoop m_ModsDirectory rounds dirs target).ops,
        op.isDestructive = false := by
  induction rounds with
  | nil =>
    intro dirs target s t h
    unfold testOverwriteLoop at h
    split at h <;> simp at h
  | cons r rest ih =>
    intro dirs target s t h
    unfold testOverwriteLoop at h ⊢
    by_cases hex : target ∈ dirs
    · simp only [hex, if_true] at h ⊢
      cases hacc : r.accepted with
      | false => simp [hacc] at h
      | true =>
        simp only [hacc, if_true] at h ⊢
        cases hb : r.backup with
        | false =>
          simp only [hb, Bool.false_eq_true, if_false] at h ⊢
          have hin : FsOp.copyDir s t false ∈ (overwriteAction m_ModsDirectory
              (testOverwriteLoop m_ModsDirectory rest) r dirs target).ops := by
            simpa using h
          obtain ⟨h1, h2, h3⟩ := overwriteAction_failed_copy m_ModsDirectory _ ih r dirs
            target s t hin
          refine ⟨h1, ?_, ?_⟩
          · exact getLast?_cons_of_getLast? _ h2
          · intro op hop
            rcases List.mem_cons.mp hop with hop | hop
            · rw [hop]; rfl
            · exact h3 op hop
        | true =>
          simp only [hb, if_true] at h ⊢
          cases hg : generateBackupName dirs target with
          | none => simp [hg] at h
          | some backupDirectory =>
            simp only [hg] at h ⊢
            cases hc : r.copyOk with
            | false =>
              simp only [hc, Bool.false_eq_true, if_false] at h ⊢
              simp only [List.mem_cons, reduceCtorEq, FsOp.copyDir.injEq, and_true,
                List.mem_singleton, List.not_mem_nil, or_false, false_or] at h
              obtain ⟨hs, ht⟩ := h
              subst hs ht
              refine ⟨by trivial, by trivial, ?_⟩
              intro op hop
              simp only [List.mem_cons, List.mem_singleton, List.not_mem_nil, or_false] at hop
              rcases hop with hop | hop <;> rw [hop] <;> rfl
            | true =>
              simp only [hc, if_true] at h ⊢
              have hin : FsOp.copyDir s t false ∈ (overwriteAction m_ModsDirectory
                  (testOverwriteLoop m_ModsDirectory rest) r (backupDirectory :: dirs)
                  target).ops := by
                simpa using h
              obtain ⟨h1, h2, h3⟩ := overwriteAction_failed_copy m_ModsDirectory _ ih r
                (backupDirectory :: dirs) target s t hin
              refine ⟨h1, ?_, ?_⟩
              · exact getLast?_cons_of_getLast? _ (getLast?_cons_of_getLast? _ h2)
              · intro op hop
                rcases List.mem_cons.mp hop with hop | hop
                · rw [hop]; rfl
                · rcases List.mem_cons.mp hop with hop | hop
                  · rw [hop]; rfl
                  · exact h3 op hop
    · simp [hex] at h

/-- A deletion in the rest of a round: it is the first operation of the action
and deletes the target directory, or it lies in the rest of the loop. -/
theorem overwriteAction_delete (m_ModsDirectory : QString)
    (loop : List QString → QString → OverwriteRun)
    (hloop : ∀ dirs target pre d post,
      (loop dirs target).ops = pre ++ FsOp.shellDelete d :: post →
      (∃ pre2 a, pre = pre2 ++ [FsOp.query false a]) ∨
      (∃ pre2 a b, pre = pre2 ++ [FsOp.query true a, FsOp.copyDir d b true]))
    (r : OverwriteRound) (dirs : List QString) (targetDirectory d : QString)
    (pre post : List FsOp)
    (h : (overwriteAction m_ModsDirectory loop r dirs targetDirectory).ops =
      pre ++ FsOp.shellDelete d :: post) :
    (pre = [] ∧ d = targetDirectory) ∨
    (∃ pre2 a, pre = pre2 ++ [FsOp.query false a]) ∨
    (∃ pre2 a b, pre = pre2 ++ [FsOp.query true a, FsOp.copyDir d b true]) := by
  unfold overwriteAction at h
  cases hact : r.action with
  | ACT_NONE => simp only [hact] at h; exact Or.inr (hloop _ _ _ _ _ h)
  | ACT_RENAME =>
    simp only [hact] at h
    cases hn : r.nameGiven with
    | false =>
      simp only [hn, Bool.false_eq_true, if_false] at h
      exact Or.inr (hloop _ _ _ _ _ h)
    | true =>
      simp only [hn, if_true] at h
      cases hv : r.validName with
      | none => simp [hv] at h
      | some modName => simp only [hv] at h; exact Or.inr (hloop _ _ _ _ _ h)
  | ACT_REPLACE =>
    simp only [hact] at h
    exact Or.inl (replaceOps_tail_no_delete _ _ _ _ _ h)
  | ACT_MERGE => simp [hact] at h

/-- A deletion comes right after the dialog of its round when no backup was
asked for, and right after the successful copy of the directory it deletes
when one was. -/
theorem testOverwriteLoop_delete (m_ModsDirectory : QString) (rounds : List OverwriteRound) :
    ∀ (dirs : List QString) (target : QString) (pre : List FsOp) (d : QString)
      (post : List FsOp),
      (testOverwriteLoop m_ModsDirectory rounds dirs target).ops =
        pre ++ FsOp.shellDelete d :: post →
      (∃ pre2 a, pre = pre2 ++ [FsOp.query false a]) ∨
      (∃ pre2 a b, pre = pre2 ++ [FsOp.query true a, FsOp.copyDir d b true]) := by
  induction rounds with
  | nil =>
    intro dirs target pre d post h
    exfalso
    have hmem : FsOp.shellDelete d ∈ (testOverwriteLoop m_ModsDirectory [] dirs target).ops := by
      rw [h]; simp
    unfold testOverwriteLoop at hmem
    split at hmem <;> simp at hmem
  | cons r rest ih =>
    intro dirs target pre d post h
    unfold testOverwriteLoop at h
    by_cases hex : target ∈ dirs
    · simp only [hex, if_true] at h
      cases hacc : r.accepted with
      | false =>
        simp only [hacc, Bool.false_eq_true, if_false] at h
        exact absurd h (by simp)
      | true =>
        simp only [hacc, if_true] at h
        cases hb : r.backup with
        | false =>
          simp only [hb, Bool.false_eq_true, if_false] at h
          cases pre with
          | nil => simp at h
          | cons p1 pre1 =>
            simp only [List.cons_append, List.cons.injEq] at h
            obtain ⟨hp1, h⟩ := h
            rcases overwriteAction_delete m_ModsDirectory _ ih r dirs target d pre1 post h with
              ⟨h1, _⟩ | ⟨pre2, a, h1⟩ | ⟨pre2, a, b, h1⟩
            · left; exact ⟨[], r.action, by rw [h1, ← hp1]; rfl⟩
            · left; exact ⟨p1 :: pre2, a, by rw [h1]; rfl⟩
            · right; exact ⟨p1 :: pre2, a, b, by rw [h1]; rfl⟩
        | true =>
          simp only [hb, if_true] at h
          cases hg : generateBackupName dirs target with
          | none =>
            exfalso
            simp only [hg] at h
            have hmem : FsOp.shellDelete d ∈ [FsOp.query true r.action] := by rw [h]; simp
            simp at hmem
          | some backupDirectory =>
            simp only [hg] at h
            cases hc : r.copyOk with
            | false =>
              exfalso
              simp only [hc, Bool.false_eq_true, if_false] at h
              have hmem : FsOp.shellDelete d ∈
                  [FsOp.query true r.action, FsOp.copyDir target backupDirectory false] := by
                rw [h]; simp
              simp at hmem
            | true =>
              simp only [hc, if_true] at h
              cases pre with
              | nil => simp at h
              | cons p1 pre1 =>
                cases pre1 with
                | nil => simp at h
                | cons p2 pre2 =>
                  simp only [List.cons_append, List.cons.injEq] at h
                  obtain ⟨hp1, hp2, h⟩ := h
                  rcases overwriteAction_delete m_ModsDirectory _ ih r
                      (backupDirectory :: dirs) target d pre2 post h with
                    ⟨h1, h2⟩ | ⟨pre3, a, h1⟩ | ⟨pre3, a, b, h1⟩
                  · right
                    exact ⟨[], r.action, backupDirectory, by rw [h1, ← hp1, ← hp2, h2]; rfl⟩
                  · left; exact ⟨p1 :: p2 :: pre3, a, by rw [h1]; rfl⟩
                  · right; exact ⟨p1 :: p2 :: pre3, a, b, by rw [h1]; rfl⟩
    · exfalso
      simp only [hex, if_false] at h
      have hmem : FsOp.shellDelete d ∈ [FsOp.mkdir target] := by rw [h]; simp
      simp at hmem

/-- C12: in `testOverwrite`, for every sequence of answers: when the copy of a
backup fails, the function returns failure, the failed copy is the last
operation of the run and no directory has been deleted, created or written to
in the run; and every recursive deletion comes right after the dialog of its
round when that round asked for no backup, and right after the successful
copy of the deleted directory to its backup when it asked for one. -/
theorem testOverwrite_backup_first (m_ModsDirectory modName : QString) (dirs : List QString)
    (rounds : List OverwriteRound) :
    (∀ s t, FsOp.copyDir s t false ∈ (testOverwrite m_ModsDirectory modName dirs rounds).ops →
      (testOverwrite m_ModsDirectory modName dirs rounds).result = some false ∧
      (testOverwrite m_ModsDirectory modName dirs rounds).ops.getLast? =
        some (FsOp.copyDir s t false) ∧
      ∀ op ∈ (testOverwrite m_ModsDirectory modName dirs rounds).ops,
        op.isDestructive = false) ∧
    (∀ pre d post,
      (testOverwrite m_ModsDirectory modName dirs rounds).ops =
        pre ++ FsOp.shellDelete d :: post →
      (∃ pre2 a, pre = pre2 ++ [FsOp.query false a]) ∨
      (∃ pre2 a b, pre = pre2 ++ [FsOp.query true a, FsOp.copyDir d b true])) :=
  ⟨fun s t h => testOverwriteLoop_failed_copy m_ModsDirectory rounds dirs _ s t h,
    fun pre d post h => testOverwriteLoop_delete m_ModsDirectory rounds dirs _ pre d post h⟩

/-- The mod `Target` exists with a first backup; the user asks for a backup and
the replacement and the copy fails: the run fails and its operations are the
dialog and the failed copy. -/
theorem testOverwrite_backup_first_witness :
    FsOp.copyDir "mods/Target".toList "mods/Target_backup2".toList false ∈
      (testOverwrite "mods".toList "Target".toList
        ["mods/Target".toList, "mods/Target_backup".toList] [backupReplaceRound false]).ops ∧
    (testOverwrite "mods".toList "Target".toList
      ["mods/Target".toList, "mods/Target_backup".toList] [backupReplaceRound false]).result =
      some false :=
  ⟨by decide,
    ((testOverwrite_backup_first "mods".toList "Target".toList
      ["mods/Target".toList, "mods/Target_backup".toList] [backupReplaceRound false]).1
      "mods/Target".toList "mods/Target_backup2".toList (by decide)).1⟩

/-! ## Properties of the extraction of a subset -/

/-- The function `wcsrchr` and `split` agree: when the character occurs, the
string found is the character followed by the last component. -/
theorem wcsrchr_split (ch : Char) :
    ∀ s : QString,
      (ch ∉ s → wcsrchr s ch = none ∧ split ch s = [s]) ∧
      (ch ∈ s → ∃ pre last, split ch s = pre ++ [last] ∧ pre ≠ [] ∧
        wcsrchr s ch = some (ch :: last)) := by
  intro s
  induction s with
  | nil => exact ⟨fun _ => ⟨rfl, rfl⟩, fun h => by simp at h⟩
  | cons c cs ih =>
    by_cases hcs : ch ∈ cs
    · obtain ⟨pre, last, h1, h2, h3⟩ := ih.2 hcs
      refine ⟨fun h => absurd (List.mem_cons_of_mem _ hcs) h, fun _ => ?_⟩
      by_cases hc : c = ch
      · refine ⟨[] :: pre, last, ?_, by simp, ?_⟩
        · rw [split, if_pos hc, h1]; rfl
        · rw [wcsrchr, h3]
      · cases pre with
        | nil => exact absurd rfl h2
        | cons hd pre2 =>
          refine ⟨(c :: hd) :: pre2, last, ?_, by simp, ?_⟩
          · rw [split, if_neg hc, h1]; rfl
          · rw [wcsrchr, h3]
    · obtain ⟨h1, h2⟩ := ih.1 hcs
      by_cases hc : c = ch
      · refine ⟨fun h => absurd (by rw [hc]; exact List.mem_cons_self _ _) h, fun _ => ?_⟩
        refine ⟨[[]], cs, ?_, by simp, ?_⟩
        · rw [split, if_pos hc, h2]; rfl
        · rw [wcsrchr, h1]; simp [hc]
      · have hnot : ch ∉ c :: cs := by
          intro h
          rcases List.mem_cons.mp h with h | h
          · exact hc h.symm
          · exact hcs h
        refine ⟨fun _ => ⟨?_, ?_⟩, fun h => absurd h hnot⟩
        · rw [wcsrchr, h1]; simp [hc]
        · rw [split, if_neg hc, h2]

theorem wcsrchr_eq_none {ch : Char} {s : QString} (h : ch ∉ s) : wcsrchr s ch = none :=
  ((wcsrchr_split ch s).1 h).1

theorem wcsrchr_eq_some {ch : Char} {s : QString} (h : ch ∈ s) :
    wcsrchr s ch = some (ch :: (split ch s).getLast?.getD []) := by
  obtain ⟨pre, last, h1, _, h3⟩ := (wcsrchr_split ch s).2 h
  rw [h3, h1]
  simp

/-- The value of `baseName` for a file name with a separator is that
separator followed by the base file name; a file name without a separator has
none. -/
theorem baseNameOf_eq (fileName : QString) :
    (hasSeparator fileName = true →
      ∃ sep, baseNameOf fileName = some (sep :: baseFileName fileName)) ∧
    (hasSeparator fileName = false → baseNameOf fileName = none) := by
  unfold hasSeparator baseNameOf baseFileName
  by_cases hb : '\\' ∈ fileName
  · rw [wcsrchr_eq_some hb, if_pos hb]
    exact ⟨fun _ => ⟨'\\', rfl⟩, fun h => by simp [hb] at h⟩
  · rw [wcsrchr_eq_none hb, if_neg hb]
    by_cases hs : '/' ∈ fileName
    · rw [wcsrchr_eq_some hs]
      exact ⟨fun _ => ⟨'/', rfl⟩, fun h => by simp [hs] at h⟩
    · rw [wcsrchr_eq_none hs]
      exact ⟨fun h => by simp [hb, hs] at h, fun _ => rfl⟩

theorem extractFilesLoop_fst (caseInsensitiveEq : QString → QString → Bool)
    (tempPath : QString) (files : List QString) (data : List FileData) :
    (extractFilesLoop caseInsensitiveEq tempPath files data).1 =
      data.map (fun fd => (extractFilesStep caseInsensitiveEq tempPath files fd).1) := by
  induction data with
  | nil => rfl
  | cons fd rest ih =>
    rw [extractFilesLoop]
    cases h : (extractFilesStep caseInsensitiveEq tempPath files fd).2 <;> simp [ih]

theorem extractFilesLoop_snd (caseInsensitiveEq : QString → QString → Bool)
    (tempPath : QString) (files : List QString) (data : List FileData) :
    (extractFilesLoop caseInsensitiveEq tempPath files data).2 =
      data.filterMap (fun fd => (extractFilesStep caseInsensitiveEq tempPath files fd).2) := by
  induction data with
  | nil => rfl
  | cons fd rest ih =>
    rw [extractFilesLoop]
    cases h : (extractFilesStep caseInsensitiveEq tempPath files fd).2 <;>
      simp [ih, h, List.filterMap_cons]

/-- What the loop of `extractFiles` does with one entry. -/
theorem extractFilesStep_cases (caseInsensitiveEq : QString → QString → Bool)
    (tempPath : QString) (filesOrig : List QString) (fd : FileData) :
    (isRequested caseInsensitiveEq filesOrig fd = false ∧
      extractFilesStep caseInsensitiveEq tempPath (filesOrig.map canonicalize) fd =
        ({ fd with skip := true }, none)) ∨
    (isRequested caseInsensitiveEq filesOrig fd = true ∧ hasSeparator fd.fileName = false ∧
      extractFilesStep caseInsensitiveEq tempPath (filesOrig.map canonicalize) fd = (fd, none)) ∨
    (isRequested caseInsensitiveEq filesOrig fd = true ∧ hasSeparator fd.fileName = true ∧
      ∃ sep, extractFilesStep caseInsensitiveEq tempPath (filesOrig.map canonicalize) fd =
        ({ fd with outputFileName := sep :: baseFileName fd.fileName, skip := false },
          some (tempPath ++ '/' :: sep :: baseFileName fd.fileName))) := by
  unfold extractFilesStep isRequested
  cases hreq : containsIgnoreCase caseInsensitiveEq (filesOrig.map canonicalize) fd.fileName with
  | false => left; simp
  | true =>
    right
    cases hsep : hasSeparator fd.fileName with
    | false =>
      left
      rw [(baseNameOf_eq fd.fileName).2 hsep]
      simp
    | true =>
      right
      obtain ⟨sep, hb⟩ := (baseNameOf_eq fd.fileName).1 hsep
      rw [hb]
      exact ⟨rfl, rfl, sep, by simp⟩

theorem forall₂_filterMap_filter {α β : Type} (R : β → α → Prop) (g : α → Option β)
    (p : α → Bool) (l : List α)
    (h : ∀ x ∈ l, (g x = none ∧ p x = false) ∨ (∃ y, g x = some y ∧ p x = true ∧ R y x)) :
    List.Forall₂ R (l.filterMap g) (l.filter p) := by
  induction l with
  | nil => exact List.Forall₂.nil
  | cons x xs ih =>
    have ih2 := ih (fun y hy => h y (List.mem_cons_of_mem _ hy))
    rcases h x (List.mem_cons_self _ _) with ⟨h1, h2⟩ | ⟨y, h1, h2, h3⟩
    · rw [List.filterMap_cons, h1, List.filter_cons_of_neg (by simp [h2])]
      exact ih2
    · rw [List.filterMap_cons, h1, List.filter_cons_of_pos (by simp [h2])]
      exact List.Forall₂.cons h3 ih2

/-- The paths returned by `extractFiles` when the extraction succeeds: one for
every requested entry with a backslash or slash, in the order of the entries. -/
theorem extractFiles_paths (caseInsensitiveEq : QString → QString → Bool)
    (tempPath : QString) (data : List FileData) (filesOrig : List QString) :
    ∃ paths, (extractFiles caseInsensitiveEq tempPath data filesOrig true).result = some paths ∧
      List.Forall₂
        (fun path fd => tempPath ++ ['/'] <+: path ∧ baseFileName fd.fileName <:+ path)
        paths
        (data.filter (fun fd =>
          isRequested caseInsensitiveEq filesOrig fd && hasSeparator fd.fileName)) := by
  refine ⟨_, rfl, ?_⟩
  rw [extractFilesLoop_snd]
  apply forall₂_filterMap_filter
  intro fd _
  rcases extractFilesStep_cases caseInsensitiveEq tempPath filesOrig fd with
    ⟨h1, h2⟩ | ⟨h1, h2, h3⟩ | ⟨h1, h2, sep, h3⟩
  · left; simp [h1, h2]
  · left; simp [h2, h3]
  · right
    refine ⟨_, by rw [h3], by simp [h1, h2], ⟨sep :: baseFileName fd.fileName, by simp⟩,
      ⟨tempPath ++ ['/', sep], by simp⟩⟩

/-- An entry whose name is the canonical form of a requested name is requested,
when the comparison holds of every string and itself. -/
theorem isRequested_of_mem (caseInsensitiveEq : QString → QString → Bool)
    (hrefl : ∀ s, caseInsensitiveEq s s = true) (filesOrig : List QString) (fd : FileData)
    (h : fd.fileName ∈ filesOrig.map canonicalize) :
    isRequested caseInsensitiveEq filesOrig fd = true := by
  unfold isRequested containsIgnoreCase
  exact List.any_eq_true.mpr ⟨fd.fileName, h, hrefl fd.fileName⟩

/-- C13 (as amended): when the extraction succeeds, `extractFiles` returns one
path for every archive entry whose full path equals, regardless of case, the
canonical form of a requested name and has a backslash or slash, in the order
of the archive entries; each path begins with the temporary directory and
`/` and ends with the base file name of its entry. This holds whatever the
comparison regardless of case is. Requesting `sub/a.txt` and `other/b.txt`
from an archive that holds `sub\a.txt`, `other\b.txt` and other files
returns two paths, for every comparison that holds of a string and itself. -/
theorem extractFiles_result (caseInsensitiveEq : QString → QString → Bool)
    (tempPath : QString) (data : List FileData) (filesOrig : List QString) :
    (∃ paths, (extractFiles caseInsensitiveEq tempPath data filesOrig true).result = some paths ∧
      List.Forall₂
        (fun path fd => tempPath ++ ['/'] <+: path ∧ baseFileName fd.fileName <:+ path)
        paths
        (data.filter (fun fd =>
          isRequested caseInsensitiveEq filesOrig fd && hasSeparator fd.fileName))) ∧
    ((∀ s, caseInsensitiveEq s s = true) →
      (extractFiles caseInsensitiveEq "tmp".toList
        [fileEntry "readme.txt", fileEntry "sub\\a.txt", fileEntry "other\\b.txt"]
        ["sub/a.txt".toList, "other/b.txt".toList] true).result.map List.length = some 2) := by
  refine ⟨extractFiles_paths caseInsensitiveEq tempPath data filesOrig, fun hrefl => ?_⟩
  obtain ⟨paths, hres, hall⟩ := extractFiles_paths caseInsensitiveEq "tmp".toList
    [fileEntry "readme.txt", fileEntry "sub\\a.txt", fileEntry "other\\b.txt"]
    ["sub/a.txt".toList, "other/b.txt".toList]
  have h1 : hasSeparator (fileEntry "readme.txt").fileName = false := by decide
  have h2 : isRequested caseInsensitiveEq ["sub/a.txt".toList, "other/b.txt".toList]
      (fileEntry "sub\\a.txt") = true :=
    isRequested_of_mem caseInsensitiveEq hrefl _ _ (by decide)
  have h3 : isRequested caseInsensitiveEq ["sub/a.txt".toList, "other/b.txt".toList]
      (fileEntry "other\\b.txt") = true :=
    isRequested_of_mem caseInsensitiveEq hrefl _ _ (by decide)
  have h4 : hasSeparator (fileEntry "sub\\a.txt").fileName = true := by decide
  have h5 : hasSeparator (fileEntry "other\\b.txt").fileName = true := by decide
  rw [hres, Option.map_some', hall.length_eq,
    List.filter_cons_of_neg (by simp only [h1, Bool.and_false]; exact Bool.false_ne_true),
    List.filter_cons_of_pos (by simp only [h2, h4, Bool.and_self]),
    List.filter_cons_of_pos (by simp only [h3, h5, Bool.and_self])]
  rfl

/-- With the comparison of ASCII names, requesting `sub/A.TXT` and
`other/b.txt` from an archive that holds `readme.txt`, `sub\a.txt` and
`other\b.txt` returns two paths, and so does requesting `sub/a.txt` and
`other/b.txt`. -/
theorem extractFiles_result_witness :
    (∃ paths, (extractFiles asciiCaseInsensitiveEq "tmp".toList
        [fileEntry "readme.txt", fileEntry "sub\\a.txt", fileEntry "other\\b.txt"]
        ["sub/A.TXT".toList, "other/b.txt".toList] true).result = some paths ∧
      paths.length = 2) ∧
    (extractFiles asciiCaseInsensitiveEq "tmp".toList
      [fileEntry "readme.txt", fileEntry "sub\\a.txt", fileEntry "other\\b.txt"]
      ["sub/a.txt".toList, "other/b.txt".toList] true).result.map List.length = some 2 := by
  obtain ⟨⟨paths, hres, hall⟩, hex⟩ := extractFiles_result asciiCaseInsensitiveEq "tmp".toList
    [fileEntry "readme.txt", fileEntry "sub\\a.txt", fileEntry "other\\b.txt"]
    ["sub/A.TXT".toList, "other/b.txt".toList]
  refine ⟨⟨paths, hres, ?_⟩, hex (fun s => by simp [asciiCaseInsensitiveEq])⟩
  rw [hall.length_eq]
  decide

/-- C13 (as stated) fails. The names `a.txt` and `b.txt` are compared with the
full paths `sub\a.txt` and `other\b.txt`, which they do not equal: no path
is returned. When the full paths are requested in the order `other/b.txt`,
`sub/a.txt`, the paths come back in the order of the archive entries, and
they are not the temporary directory, `/` and the base file name. All names
are of ASCII characters, compared by `asciiCaseInsensitiveEq`. -/
theorem extractFiles_example_empty :
    (extractFiles asciiCaseInsensitiveEq "tmp".toList
      [fileEntry "sub\\a.txt", fileEntry "other\\b.txt", fileEntry "readme.txt"]
      ["a.txt".toList, "b.txt".toList] true).result = some [] ∧
    (extractFiles asciiCaseInsensitiveEq "tmp".toList
      [fileEntry "sub/a.txt", fileEntry "other/b.txt", fileEntry "readme.txt"]
      ["a.txt".toList, "b.txt".toList] true).result = some [] ∧
    (extractFiles asciiCaseInsensitiveEq "tmp".toList
      [fileEntry "sub\\a.txt", fileEntry "other\\b.txt", fileEntry "readme.txt"]
      ["other/b.txt".toList, "sub/a.txt".toList] true).result =
      some ["tmp/\\a.txt".toList, "tmp/\\b.txt".toList] ∧
    "tmp/\\a.txt".toList ≠ "tmp".toList ++ "/".toList ++ "a.txt".toList := by
  decide

/-- C14 (as amended): after `extractFiles` has set the flags, an entry whose
full path equals, regardless of case, the canonical form of a requested name
and has a backslash or slash is flagged skip=false; an entry whose full path
equals none of them is flagged skip=true; an entry whose full path equals one
of them but has neither a backslash nor a slash is passed over and keeps the
flag it had. The file list keeps its length and every entry its path. This
holds whatever the comparison regardless of case is. -/
theorem extractFiles_flags (caseInsensitiveEq : QString → QString → Bool)
    (tempPath : QString) (data : List FileData)
    (filesOrig : List QString) (extractOk : Bool) (i : Nat) (fd : FileData)
    (hi : data[i]? = some fd) :
    ∃ fd2, (extractFiles caseInsensitiveEq tempPath data filesOrig extractOk).data[i]? =
        some fd2 ∧
      fd2.fileName = fd.fileName ∧
      (isRequested caseInsensitiveEq filesOrig fd = true → hasSeparator fd.fileName = true →
        fd2.skip = false) ∧
      (isRequested caseInsensitiveEq filesOrig fd = false → fd2.skip = true) ∧
      (isRequested caseInsensitiveEq filesOrig fd = true → hasSeparator fd.fileName = false →
        fd2.skip = fd.skip) := by
  have hdata : (extractFiles caseInsensitiveEq tempPath data filesOrig extractOk).data =
      data.map (fun fd =>
        (extractFilesStep caseInsensitiveEq tempPath (filesOrig.map canonicalize) fd).1) := by
    unfold extractFiles
    cases extractOk <;> simp [extractFilesLoop_fst]
  refine ⟨(extractFilesStep caseInsensitiveEq tempPath (filesOrig.map canonicalize) fd).1,
    ?_, ?_⟩
  · rw [hdata, List.getElem?_map, hi]; rfl
  · rcases extractFilesStep_cases caseInsensitiveEq tempPath filesOrig fd with
      ⟨h1, h2⟩ | ⟨h1, h2, h3⟩ | ⟨h1, h2, sep, h3⟩
    · rw [h2]; simp [h1]
    · rw [h3]; simp [h1, h2]
    · rw [h3]; simp [h1, h2]

/-- With the comparison of ASCII names, a requested file in a directory is
flagged skip=false, a file that is not requested skip=true. -/
theorem extractFiles_flags_witness :
    ∃ fd2, (extractFiles asciiCaseInsensitiveEq "tmp".toList
        [selectedEntry "readme.txt", fileEntry "sub\\a.txt"]
        ["sub/A.TXT".toList] true).data[1]? = some fd2 ∧ fd2.skip = false := by
  obtain ⟨fd2, h1, _, h3, _⟩ := extractFiles_flags asciiCaseInsensitiveEq "tmp".toList
    [selectedEntry "readme.txt", fileEntry "sub\\a.txt"] ["sub/A.TXT".toList] true 1
    (fileEntry "sub\\a.txt") rfl
  exact ⟨fd2, h1, h3 (by decide) (by decide)⟩

/-- C14 (as stated) fails: the entry `readme.txt` is requested, but its path has
no backslash and no slash, so the loop passes it over and it stays flagged
skip=true. The names are of ASCII characters, compared by
`asciiCaseInsensitiveEq`. -/
theorem extractFiles_flags_no_separator :
    isRequested asciiCaseInsensitiveEq ["readme.txt".toList] (fileEntry "readme.txt") = true ∧
    (fileEntry "readme.txt").skip = true ∧
    (extractFiles asciiCaseInsensitiveEq "tmp".toList
      [fileEntry "readme.txt", fileEntry "sub\\a.txt"]
      ["readme.txt".toList] true).data.map (fun fd => fd.skip) = [true, true] := by
  decide

/-! ## Properties of the metadata reconciliation -/

theorem updateSettings_modid (versionGE : QString → QString → Bool) (settingsFile : MetaSettings)
    (modID : Int) (version newestVersion : QString) (categoryID : Int) (m_CurrentFile : QString) :
    (updateSettings versionGE settingsFile modID version newestVersion categoryID
      m_CurrentFile).modid =
      if modID ≠ 0 ∨ settingsFile.modid = none then some modID else settingsFile.modid := by
  unfold updateSettings
  by_cases h : modID ≠ 0 ∨ settingsFile.modid = none
  · simp only [h, if_true]; split_ifs <;> rfl
  · simp only [h, if_false]; split_ifs <;> rfl

theorem updateSettings_version (versionGE : QString → QString → Bool) (settingsFile : MetaSettings)
    (modID : Int) (version newestVersion : QString) (categoryID : Int) (m_CurrentFile : QString) :
    (updateSettings versionGE settingsFile modID version newestVersion categoryID
      m_CurrentFile).version =
      if settingsFile.version = none ∨
          (version ≠ [] ∧ versionGE version (settingsFile.version.getD []) = true) then
        some version
      else settingsFile.version := by
  unfold updateSettings
  by_cases h : modID ≠ 0 ∨ settingsFile.modid = none
  · simp only [h, if_true]; split_ifs <;> rfl
  · simp only [h, if_false]; split_ifs <;> rfl

theorem updateSettings_newestVersion (versionGE : QString → QString → Bool)
    (settingsFile : MetaSettings) (modID : Int) (version newestVersion : QString)
    (categoryID : Int) (m_CurrentFile : QString) :
    (updateSettings versionGE settingsFile modID version newestVersion categoryID
      m_CurrentFile).newestVersion =
      if newestVersion ≠ [] ∨ settingsFile.newestVersion = none then some newestVersion
      else settingsFile.newestVersion := by
  unfold updateSettings
  by_cases h : modID ≠ 0 ∨ settingsFile.modid = none
  · simp only [h, if_true]; split_ifs <;> rfl
  · simp only [h, if_false]; split_ifs <;> rfl

theorem updateSettings_category (versionGE : QString → QString → Bool)
    (settingsFile : MetaSettings) (modID : Int) (version newestVersion : QString)
    (categoryID : Int) (m_CurrentFile : QString) :
    (updateSettings versionGE settingsFile modID version newestVersion categoryID
      m_CurrentFile).category =
      if settingsFile.category = none then some (number categoryID)
      else settingsFile.category := by
  unfold updateSettings
  by_cases h : modID ≠ 0 ∨ settingsFile.modid = none
  · simp only [h, if_true]; split_ifs <;> rfl
  · simp only [h, if_false]; split_ifs <;> rfl

theorem updateSettings_installationFile (versionGE : QString → QString → Bool)
    (settingsFile : MetaSettings) (modID : Int) (version newestVersion : QString)
    (categoryID : Int) (m_CurrentFile : QString) :
    (updateSettings versionGE settingsFile modID version newestVersion categoryID
      m_CurrentFile).installationFile = some m_CurrentFile := by
  unfold updateSettings
  rfl

theorem MetaSettings.eq_of_fields {a b : MetaSettings} (h1 : a.modid = b.modid)
    (h2 : a.version = b.version) (h3 : a.newestVersion = b.newestVersion)
    (h4 : a.category = b.category) (h5 : a.installationFile = b.installationFile) : a = b := by
  cases a
  cases b
  simp_all

/-- C15: the update of `meta.ini` at the end of `doInstall` is idempotent:
for every stored record and every input, applying it twice with the same
input gives the record that applying it once gives; this holds for every
comparison of versions, a reflexive one in particular. -/
theorem updateSettings_idempotent (versionGE : QString → QString → Bool)
    (settingsFile : MetaSettings) (modID : Int)
    (version newestVersion : QString) (categoryID : Int) (m_CurrentFile : QString) :
    updateSettings versionGE
      (updateSettings versionGE settingsFile modID version newestVersion categoryID m_CurrentFile)
      modID version newestVersion categoryID m_CurrentFile =
    updateSettings versionGE settingsFile modID version newestVersion categoryID
      m_CurrentFile := by
  apply MetaSettings.eq_of_fields
  · rw [updateSettings_modid, updateSettings_modid]
    by_cases h : modID ≠ 0 ∨ settingsFile.modid = none
    · simp only [h, if_true, ite_self]
    · simp only [h, if_false]
  · rw [updateSettings_version, updateSettings_version]
    by_cases h : settingsFile.version = none ∨
        (version ≠ [] ∧ versionGE version (settingsFile.version.getD []) = true)
    · simp only [h, if_true, ite_self]
    · simp only [h, if_false]
  · rw [updateSettings_newestVersion, updateSettings_newestVersion]
    by_cases h : newestVersion ≠ [] ∨ settingsFile.newestVersion = none
    · simp only [h, if_true, ite_self]
    · simp only [h, if_false]
  · rw [updateSettings_category, updateSettings_category]
    by_cases h : settingsFile.category = none
    · simp [h]
    · simp only [h, if_false]
  · rw [updateSettings_installationFile, updateSettings_installationFile]

/-- C16: in the update of `meta.ini` the key `modid` gets the new id when the
new id is not zero or the record has no `modid`, and keeps its value
otherwise; the key `newestVersion` gets the new value when the new value is
not empty or the record has no `newestVersion`, also when the new value is
empty, and keeps its value otherwise. -/
theorem updateSettings_modid_newestVersion (versionGE : QString → QString → Bool)
    (settingsFile : MetaSettings) (modID : Int) (version newestVersion : QString)
    (categoryID : Int) (m_CurrentFile : QString) :
    ((modID ≠ 0 ∨ settingsFile.modid = none) →
      (updateSettings versionGE settingsFile modID version newestVersion categoryID
        m_CurrentFile).modid = some modID) ∧
    (¬ (modID ≠ 0 ∨ settingsFile.modid = none) →
      (updateSettings versionGE settingsFile modID version newestVersion categoryID
        m_CurrentFile).modid = settingsFile.modid) ∧
    ((newestVersion ≠ [] ∨ settingsFile.newestVersion = none) →
      (updateSettings versionGE settingsFile modID version newestVersion categoryID
        m_CurrentFile).newestVersion = some newestVersion) ∧
    (¬ (newestVersion ≠ [] ∨ settingsFile.newestVersion = none) →
      (updateSettings versionGE settingsFile modID version newestVersion categoryID
        m_CurrentFile).newestVersion = settingsFile.newestVersion) := by
  rw [updateSettings_modid, updateSettings_newestVersion]
  refine ⟨fun h => if_pos h, fun h => if_neg h, fun h => if_pos h, fun h => if_neg h⟩

/-- A record without `newestVersion` receives the empty new value; a record
with `modid` 7 keeps it when the new id is zero. -/
theorem updateSettings_modid_newestVersion_witness :
    (updateSettings sampleVersionGE ⟨some 7, some "1.0".toList, none, none, none⟩ 0
      "1.1".toList [] 3 "mod.7z".toList).newestVersion = some [] ∧
    (updateSettings sampleVersionGE ⟨some 7, some "1.0".toList, none, none, none⟩ 0
      "1.1".toList [] 3 "mod.7z".toList).modid = some 7 :=
  ⟨(updateSettings_modid_newestVersion sampleVersionGE
      ⟨some 7, some "1.0".toList, none, none, none⟩ 0 "1.1".toList [] 3
      "mod.7z".toList).2.2.1 (Or.inr rfl),
    (updateSettings_modid_newestVersion sampleVersionGE
      ⟨some 7, some "1.0".toList, none, none, none⟩ 0 "1.1".toList [] 3
      "mod.7z".toList).2.1 (by decide)⟩

/-- C17: in the update of `meta.ini`, a record that has a version gets the new
version exactly when the new version is not empty and compares `>=` the
stored one, so the version is overwritten only then; an empty new version and
a new version that does not compare `>=` the stored one leave the stored
version as it is; a record without a version always receives the new one. -/
theorem updateSettings_version_rule (versionGE : QString → QString → Bool)
    (settingsFile : MetaSettings) (modID : Int) (version newestVersion : QString)
    (categoryID : Int) (m_CurrentFile : QString) :
    (∀ stored, settingsFile.version = some stored →
      ((version ≠ [] ∧ versionGE version stored = true) →
        (updateSettings versionGE settingsFile modID version newestVersion categoryID
          m_CurrentFile).version = some version) ∧
      ((updateSettings versionGE settingsFile modID version newestVersion categoryID
          m_CurrentFile).version ≠ some stored →
        version ≠ [] ∧ versionGE version stored = true) ∧
      ((version = [] ∨ versionGE version stored = false) →
        (updateSettings versionGE settingsFile modID version newestVersion categoryID
          m_CurrentFile).version = some stored)) ∧
    (settingsFile.version = none →
      (updateSettings versionGE settingsFile modID version newestVersion categoryID
        m_CurrentFile).version = some version) := by
  rw [updateSettings_version]
  constructor
  · intro stored hs
    rw [hs]
    simp only [reduceCtorEq, false_or, Option.getD_some]
    by_cases h : version ≠ [] ∧ versionGE version stored = true
    · rw [if_pos h]
      refine ⟨fun _ => rfl, fun _ => h, fun h2 => ?_⟩
      rcases h2 with h2 | h2
      · exact absurd h2 h.1
      · rw [h.2] at h2; cases h2
    · rw [if_neg h]
      exact ⟨fun h2 => absurd h2 h, fun h2 => absurd rfl h2, fun _ => rfl⟩
  · intro hs
    rw [hs]
    simp

/-- A stored version 1.5 is replaced by 2.0 and kept when the new version is
1.0 or empty. -/
theorem updateSettings_version_rule_witness :
    (updateSettings sampleVersionGE ⟨some 7, some "1.5".toList, none, none, none⟩ 7
      "2.0".toList [] 3 "mod.7z".toList).version = some "2.0".toList ∧
    (updateSettings sampleVersionGE ⟨some 7, some "1.5".toList, none, none, none⟩ 7
      "1.0".toList [] 3 "mod.7z".toList).version = some "1.5".toList ∧
    (updateSettings sampleVersionGE ⟨some 7, some "1.5".toList, none, none, none⟩ 7
      [] [] 3 "mod.7z".toList).version = some "1.5".toList :=
  ⟨((updateSettings_version_rule sampleVersionGE ⟨some 7, some "1.5".toList, none, none, none⟩ 7
      "2.0".toList [] 3 "mod.7z".toList).1 "1.5".toList rfl).1 (by decide),
   ((updateSettings_version_rule sampleVersionGE ⟨some 7, some "1.5".toList, none, none, none⟩ 7
      "1.0".toList [] 3 "mod.7z".toList).1 "1.5".toList rfl).2.2 (by decide),
   ((updateSettings_version_rule sampleVersionGE ⟨some 7, some "1.5".toList, none, none, none⟩ 7
      [] [] 3 "mod.7z".toList).1 "1.5".toList rfl).2.2 (Or.inl rfl)⟩

/-! ## Properties of the mapping back to the archive -/


mutual
theorem mapToArchiveNode_eq : ∀ (t : Node) (path : QString) (data : List FileData),
    mapToArchiveNode t path data =
      (enabledBy t path).foldl (fun d w => enableEntry d w.1 w.2) data
  | Node.mk _ nodes leafs, path, data => by
    rw [mapToArchiveNode, enabledBy, List.foldl_append, List.foldl_map]
    exact mapToArchiveNodes_eq nodes _ _
theorem mapToArchiveNodes_eq : ∀ (nodes : List Node) (path : QString) (data : List FileData),
    mapToArchiveNodes nodes path data =
      (enabledByNodes nodes path).foldl (fun d w => enableEntry d w.1 w.2) data
  | [], _, _ => by rw [mapToArchiveNodes, enabledByNodes]; rfl
  | n :: rest, path, data => by
    rw [mapToArchiveNodes, enabledByNodes, List.foldl_append, List.foldl_append,
      mapToArchiveNodes_eq rest, mapToArchiveNode_eq n]
    by_cases h : n.getData.index ≠ -1
    · rw [if_pos h, if_pos h]; rfl
    · rw [if_neg h, if_neg h]; rfl
end

theorem enabledByNodes_mem_of_tagged {c : Node} (hidx : c.getData.index ≠ -1) :
    ∀ (nodes : List Node) (path : QString), c ∈ nodes →
      (c.getData.index, path ++ c.getData.name) ∈ enabledByNodes nodes path := by
  intro nodes
  induction nodes with
  | nil => intro path h; simp at h
  | cons n rest ih =>
    intro path h
    rw [enabledByNodes]
    rcases List.mem_cons.mp h with h | h
    · subst h
      rw [if_pos hidx]
      simp
    · exact List.mem_append_right _ (List.mem_append_right _ (ih path h))

theorem enabledByNodes_mem_of_child {c : Node} {w : Int × QString} :
    ∀ (nodes : List Node) (path : QString), c ∈ nodes →
      w ∈ enabledBy c (path ++ c.getData.name) → w ∈ enabledByNodes nodes path := by
  intro nodes
  induction nodes with
  | nil => intro path h; simp at h
  | cons n rest ih =>
    intro path h hw
    rw [enabledByNodes]
    rcases List.mem_cons.mp h with h | h
    · subst h
      exact List.mem_append_right _ (List.mem_append_left _ hw)
    · exact List.mem_append_right _ (List.mem_append_right _ (ih path h hw))

/-- Every leaf and tagged directory node below a node is enabled, with the
output name built from the names on the way. -/
theorem enabledBy_of_carries {t : Node} {names : List QString} {index : Int}
    (h : t.Carries names index) :
    ∀ path : QString, (index, names.foldl outputName path) ∈ enabledBy t path := by
  induction h with
  | @leaf t l hl =>
    intro path
    cases t with
    | mk d nodes leafs =>
      rw [enabledBy]
      exact List.mem_append_left _ (List.mem_map.mpr ⟨l, hl, rfl⟩)
  | @dir t c hc hidx =>
    intro path
    cases t with
    | mk d nodes leafs =>
      rw [enabledBy]
      exact List.mem_append_right _ (enabledByNodes_mem_of_tagged hidx nodes _ hc)
  | @inside t c names index hc _ ih =>
    intro path
    cases t with
    | mk d nodes leafs =>
      rw [enabledBy]
      exact List.mem_append_right _ (enabledByNodes_mem_of_child nodes _ hc (ih _))

mutual
/-- Every entry that is enabled is carried by a leaf or a tagged directory node
below the node, and its output name is built from the names on the way. -/
theorem carries_of_enabledBy : ∀ (t : Node) (path : QString) (w : Int × QString),
    w ∈ enabledBy t path →
      ∃ names, t.Carries names w.1 ∧ w.2 = names.foldl outputName path
  | Node.mk d nodes leafs, path, w, h => by
    rw [enabledBy] at h
    rcases List.mem_append.mp h with h | h
    · obtain ⟨l, hl, hw⟩ := List.mem_map.mp h
      subst hw
      exact ⟨[l.name], Node.Carries.leaf hl, rfl⟩
    · obtain ⟨c, hc, hcase⟩ := carries_of_enabledByNodes nodes _ w h
      rcases hcase with ⟨hidx, hw⟩ | ⟨names, hcar, hw⟩
      · subst hw
        exact ⟨[c.getData.name], Node.Carries.dir hc hidx, rfl⟩
      · exact ⟨c.getData.name :: names, Node.Carries.inside hc hcar, hw⟩
theorem carries_of_enabledByNodes : ∀ (nodes : List Node) (path : QString)
    (w : Int × QString), w ∈ enabledByNodes nodes path →
      ∃ c ∈ nodes, (c.getData.index ≠ -1 ∧ w = (c.getData.index, path ++ c.getData.name)) ∨
        ∃ names, c.Carries names w.1 ∧ w.2 = names.foldl outputName (path ++ c.getData.name)
  | [], _, _, h => by simp [enabledByNodes] at h
  | n :: rest, path, w, h => by
    rw [enabledByNodes] at h
    rcases List.mem_append.mp h with h | h
    · by_cases hidx : n.getData.index ≠ -1
      · rw [if_pos hidx] at h
        exact ⟨n, List.mem_cons_self _ _, Or.inl ⟨hidx, List.mem_singleton.mp h⟩⟩
      · rw [if_neg hidx] at h
        simp at h
    · rcases List.mem_append.mp h with h | h
      · exact ⟨n, List.mem_cons_self _ _, Or.inr (carries_of_enabledBy n _ w h)⟩
      · obtain ⟨c, hc, hcase⟩ := carries_of_enabledByNodes rest path w h
        exact ⟨c, List.mem_cons_of_mem _ hc, hcase⟩
end

theorem joinPath_append_cons (a b : QString) (rest : List QString) :
    joinPath ((a ++ b) :: rest) = a ++ joinPath (b :: rest) := by
  cases rest with
  | nil => rfl
  | cons c cs => simp [joinPath]

theorem foldl_outputName_of_ne_nil (names : List QString) :
    ∀ path : QString, path ≠ [] → names.foldl outputName path = joinPath (path :: names) := by
  induction names with
  | nil => intro path _; rfl
  | cons n rest ih =>
    intro path hp
    have hout : outputName path n = path ++ '\\' :: n := by
      unfold outputName withSeparator
      have : path.length > 0 := List.length_pos.mpr hp
      simp [this]
    rw [List.foldl_cons, hout, ih _ (by simp), joinPath_append_cons]
    cases rest with
    | nil => simp [joinPath]
    | cons c cs => simp [joinPath]

/-- The output name built from the empty path: the names joined by backslashes,
leading empty names left out. -/
theorem foldl_outputName_nil (names : List QString) :
    names.foldl outputName [] = joinPath (names.dropWhile (fun n => decide (n = []))) := by
  induction names with
  | nil => rfl
  | cons n rest ih =>
    have hout : outputName [] n = n := by simp [outputName, withSeparator]
    rw [List.foldl_cons, hout]
    by_cases hn : n = []
    · rw [hn, ih]
      simp [List.dropWhile_cons]
    · rw [foldl_outputName_of_ne_nil rest n hn]
      simp [List.dropWhile_cons, hn]

theorem getElem?_enableEntry (data : List FileData) (index : Int) (out : QString) (i : Nat) :
    (enableEntry data index out)[i]? =
      if index = (i : Int) then
        (data[i]?).map (fun fd => { fd with skip := false, outputFileName := out })
      else data[i]? := by
  unfold enableEntry
  by_cases h0 : 0 ≤ index
  · rw [if_pos h0]
    by_cases hi : index = (i : Int)
    · rw [if_pos hi]
      have hnat : index.toNat = i := by omega
      rw [hnat]
      cases hd : data[i]? with
      | none => simp [hd]
      | some fd => simp [List.getElem?_set, hd, (List.getElem?_eq_some.mp hd).1]
    · rw [if_neg hi]
      have hnat : index.toNat ≠ i := by omega
      cases hd : data[index.toNat]? with
      | none => rfl
      | some fd => simp [List.getElem?_set, hnat]
  · rw [if_neg h0]
    have hi : index ≠ (i : Int) := by omega
    rw [if_neg hi]

/-- The entry at a position after a sequence of enabling calls: it is as it was
when no call has its index; otherwise it is flagged skip=false and has the
output name of one of the calls with its index. -/
theorem foldl_enableEntry (ws : List (Int × QString)) :
    ∀ (data : List FileData) (i : Nat) (fd : FileData), data[i]? = some fd →
      ∃ fd2, (ws.foldl (fun d w => enableEntry d w.1 w.2) data)[i]? = some fd2 ∧
        fd2.fileName = fd.fileName ∧
        (((∀ w ∈ ws, w.1 ≠ (i : Int)) ∧ fd2 = fd) ∨
          ∃ w ∈ ws, w.1 = (i : Int) ∧ fd2.skip = false ∧ fd2.outputFileName = w.2) := by
  induction ws with
  | nil => intro data i fd h; exact ⟨fd, h, rfl, Or.inl ⟨fun w hw => by simp at hw, rfl⟩⟩
  | cons w rest ih =>
    intro data i fd h
    rw [List.foldl_cons]
    by_cases hw : w.1 = (i : Int)
    · have hstep : (enableEntry data w.1 w.2)[i]? =
          some { fd with skip := false, outputFileName := w.2 } := by
        rw [getElem?_enableEntry, if_pos hw, h]; rfl
      obtain ⟨fd2, h1, h2, h3⟩ := ih _ i _ hstep
      refine ⟨fd2, h1, h2, Or.inr ?_⟩
      rcases h3 with ⟨_, heq⟩ | ⟨w2, hw2, h4⟩
      · exact ⟨w, List.mem_cons_self _ _, hw, by rw [heq], by rw [heq]⟩
      · exact ⟨w2, List.mem_cons_of_mem _ hw2, h4⟩
    · have hstep : (enableEntry data w.1 w.2)[i]? = some fd := by
        rw [getElem?_enableEntry, if_neg hw, h]
      obtain ⟨fd2, h1, h2, h3⟩ := ih _ i _ hstep
      refine ⟨fd2, h1, h2, ?_⟩
      rcases h3 with ⟨hall, heq⟩ | ⟨w2, hw2, h4⟩
      · left
        refine ⟨?_, heq⟩
        intro w2 hw2
        rcases List.mem_cons.mp hw2 with h5 | h5
        · rw [h5]; exact hw
        · exact hall w2 h5
      · exact Or.inr ⟨w2, List.mem_cons_of_mem _ hw2, h4⟩

/-- The entry at a position after `mapToArchive`: it is flagged skip=false
exactly when a leaf or a tagged directory node below the base node carries its
index, and its output name then is the names on the way to one of them, joined
by backslashes, leading empty names left out. -/
theorem mapToArchive_entry (baseNode : Node) (data : List FileData) (i : Nat) (fd : FileData)
    (hi : data[i]? = some fd) :
    ∃ fd2, (mapToArchive baseNode data)[i]? = some fd2 ∧ fd2.fileName = fd.fileName ∧
      (fd2.skip = false ↔ ∃ names, baseNode.Carries names (i : Int)) ∧
      (fd2.skip = false → ∃ names, baseNode.Carries names (i : Int) ∧
        fd2.outputFileName = joinPath (names.dropWhile (fun n => decide (n = [])))) := by
  have hstart : (data.map (fun fd => { fd with skip := true }))[i]? =
      some { fd with skip := true } := by
    rw [List.getElem?_map, hi]; rfl
  obtain ⟨fd2, h1, h2, h3⟩ := foldl_enableEntry (enabledBy baseNode []) _ i _ hstart
  unfold mapToArchive
  rw [mapToArchiveNode_eq]
  refine ⟨fd2, h1, h2, ?_⟩
  rcases h3 with ⟨hall, heq⟩ | ⟨w, hw, hwi, hskip, hout⟩
  · have hskip : fd2.skip = true := by rw [heq]
    have hnone : ¬ ∃ names, baseNode.Carries names (i : Int) := by
      rintro ⟨names, hc⟩
      exact hall _ (enabledBy_of_carries hc []) rfl
    rw [hskip]
    exact ⟨⟨fun h => (by cases h), fun h => absurd h hnone⟩, fun h => (by cases h)⟩
  · obtain ⟨names, hc, hpath⟩ := carries_of_enabledBy baseNode [] w hw
    rw [hwi] at hc
    refine ⟨⟨fun _ => ⟨names, hc⟩, fun _ => hskip⟩, fun _ => ⟨names, hc, ?_⟩⟩
    rw [hout, hpath, foldl_outputName_nil]

/-- The three ways an index is carried below a node. -/
theorem carries_cases {t : Node} {names : List QString} {index : Int}
    (h : t.Carries names index) :
    (∃ l ∈ t.leafs, names = [l.name] ∧ index = (l.index : Int)) ∨
    (∃ c ∈ t.nodes, c.getData.index ≠ -1 ∧ names = [c.getData.name] ∧
      index = c.getData.index) ∨
    (∃ c rest, c ∈ t.nodes ∧ c.Carries rest index ∧ names = c.getData.name :: rest) := by
  cases h with
  | leaf hl => exact Or.inl ⟨_, hl, rfl, rfl⟩
  | dir hc hidx => exact Or.inr (Or.inl ⟨_, hc, hidx, rfl, rfl⟩)
  | inside hc h2 => exact Or.inr (Or.inr ⟨_, _, hc, h2, rfl⟩)

/-- C18 (as amended): for every tree and every archive entry list, after
`mapToArchive(base)` an entry is flagged skip=false if and only if its index
is carried by a leaf or by a directory node with an index below the base node,
and every other entry is flagged skip=true; the output name of an entry that
is flagged skip=false is the sequence of node names from the base node
(exclusive) down to such a leaf or directory, joined by backslashes after the
leading empty names have been left out. -/
theorem mapToArchive_flags (baseNode : Node) (data : List FileData) (i : Nat) (fd : FileData)
    (hi : data[i]? = some fd) :
    ∃ fd2, (mapToArchive baseNode data)[i]? = some fd2 ∧
      (fd2.skip = false ↔ ∃ names, baseNode.Carries names (i : Int)) ∧
      ((¬ ∃ names, baseNode.Carries names (i : Int)) → fd2.skip = true) ∧
      (fd2.skip = false → ∃ names, baseNode.Carries names (i : Int) ∧
        fd2.outputFileName = joinPath (names.dropWhile (fun n => decide (n = [])))) := by
  obtain ⟨fd2, h1, _, h3, h4⟩ := mapToArchive_entry baseNode data i fd hi
  refine ⟨fd2, h1, h3, ?_, h4⟩
  intro hnone
  cases hs : fd2.skip with
  | true => rfl
  | false => exact absurd (h3.mp hs) hnone

/-- The tree of a file in a directory, of which a strategy has kept
everything: the entry is flagged skip=false. -/
theorem mapToArchive_flags_witness :
    ∃ fd2, (mapToArchive (createFilesTree [fileEntry "data\\a.esp"])
        [fileEntry "data\\a.esp"])[0]? = some fd2 ∧
      (fd2.skip = false ↔
        ∃ names, (createFilesTree [fileEntry "data\\a.esp"]).Carries names ((0 : Nat) : Int)) := by
  obtain ⟨fd2, h1, h2, _⟩ := mapToArchive_flags (createFilesTree [fileEntry "data\\a.esp"])
    [fileEntry "data\\a.esp"] 0 (fileEntry "data\\a.esp") rfl
  exact ⟨fd2, h1, h2⟩

/-- C18 (as stated) fails for a directory node with an empty name: the leaf `a`
with index 0 lies below the directory node with the empty name, the names on
the way are the empty name and `a`, which joined by a backslash give `\a`,
and the output name of the entry is `a`. And an output name can begin with a
separator: a leaf named `\a` below the base node gives the output name
`\a`. -/
theorem mapToArchive_empty_name :
    (mapToArchive (Node.mk ⟨[], -1⟩ [Node.mk ⟨[], -1⟩ [] [⟨"a".toList, 0⟩]] [])
      [fileEntry "a"]) = [⟨"a".toList, false, false, "a".toList⟩] ∧
    (∀ names, (Node.mk ⟨[], -1⟩ [Node.mk ⟨[], -1⟩ [] [⟨"a".toList, 0⟩]] []).Carries names
        ((0 : Nat) : Int) → names = [[], "a".toList]) ∧
    joinPath [[], "a".toList] = "\\a".toList ∧
    joinPath [[], "a".toList] ≠ "a".toList ∧
    (mapToArchive (Node.mk ⟨[], -1⟩ [] [⟨"\\a".toList, 0⟩]) [fileEntry "x"]) =
      [⟨"x".toList, false, false, "\\a".toList⟩] := by
  refine ⟨by decide, ?_, by decide, by decide, by decide⟩
  intro names h
  rcases carries_cases h with ⟨l, hl, _, _⟩ | ⟨c, hc, hidx, _, _⟩ | ⟨c, rest, hc, h2, hn⟩
  · simp [Node.leafs] at hl
  · simp only [Node.nodes, List.mem_singleton] at hc
    subst hc
    simp [Node.getData] at hidx
  · simp only [Node.nodes, List.mem_singleton] at hc
    subst hc
    rcases carries_cases h2 with ⟨l, hl, hn2, _⟩ | ⟨c2, hc2, _⟩ | ⟨c2, _, hc2, _⟩
    · simp only [Node.leafs, List.mem_singleton] at hl
      subst hl
      rw [hn, hn2]
      rfl
    · simp [Node.nodes] at hc2
    · simp [Node.nodes] at hc2

/-! ## Building the tree and mapping it back -/

theorem joinPath_split (s : QString) : joinPath (split '\\' s) = s := by
  induction s with
  | nil => rfl
  | cons c cs ih =>
    rw [split]
    have hne := split_ne_nil '\\' cs
    cases hs : split '\\' cs with
    | nil => exact absurd hs hne
    | cons hd tl =>
      rw [hs] at ih
      by_cases hc : c = '\\'
      · simp only [hc, if_true, joinPath, List.nil_append, ih]
      · simp only [hc, if_false]
        have := joinPath_append_cons [c] hd tl
        simp only [List.singleton_append] at this
        rw [this, ih]

/-- The leafs stay the entries at their indices, and the directory nodes stay
without index, when a file entry is added. -/
theorem addPath_indexedBy (data : List FileData) (k : Nat) (fd : FileData)
    (hk : data[k]? = some fd) (hfile : fd.isDirectory = false) (t : Node)
    (ht : Node.All (IndexedBy data) [] t) :
    Node.All (IndexedBy data) [] (addPath k fd.isDirectory (components fd) t) := by
  refine addPath_all (P := IndexedBy data) (Q := IndexedBy data) k fd.isDirectory
    (components fd) ?_ ?_ ?_ ?_ (components fd) [] t rfl (by simp) ht
  · intro pre c idx
    exact ⟨fun l hl => by simp [Node.leafs] at hl, fun x hx => by simp [Node.nodes] at hx⟩
  · intro pre d nodes nodes2 leafs hP _ hmap
    refine ⟨hP.1, ?_⟩
    intro x hx
    have hxn : x.getData ∈ nodes.map Node.getData := by
      rw [← hmap]; exact List.mem_map_of_mem _ hx
    obtain ⟨y, hy, hyx⟩ := List.mem_map.mp hxn
    rw [← hyx]
    exact hP.2 y hy
  · intro pre d nodes leafs c rest m hP _ _ _ _ hidx _
    refine ⟨hP.1, ?_⟩
    intro x hx
    rcases List.mem_append.mp (show x ∈ nodes ++ [m] from hx) with h | h
    · exact hP.2 x h
    · rw [List.mem_singleton.mp h]; exact hidx hfile
  · intro pre d nodes leafs c hP _ _ _ _ hfull
    refine ⟨?_, hP.2⟩
    intro l hl
    rcases List.mem_append.mp (show l ∈ leafs ++ [⟨c, k⟩] from hl) with h | h
    · exact hP.1 l h
    · rw [List.mem_singleton.mp h]
      exact ⟨fd, hk, hfull.symm⟩

theorem buildFrom_indexedBy (data : List FileData) (l : List FileData) :
    ∀ (k : Nat) (t : Node), (∀ j fd, l[j]? = some fd → data[k + j]? = some fd) →
      (∀ fd ∈ l, fd.isDirectory = false) → Node.All (IndexedBy data) [] t →
      Node.All (IndexedBy data) [] (buildFrom k l t) := by
  induction l with
  | nil => intro k t _ _ ht; simpa [buildFrom] using ht
  | cons fd rest ih =>
    intro k t hl hfiles ht
    rw [buildFrom]
    refine ih (k + 1) _ ?_ (fun x hx => hfiles x (List.mem_cons_of_mem _ hx))
      (addPath_indexedBy data k fd (by simpa using hl 0 fd (by simp))
        (hfiles fd (List.mem_cons_self _ _)) t ht)
    intro j x hx
    have := hl (j + 1) x (by simpa using hx)
    have he : k + 1 + j = k + (j + 1) := by omega
    rw [he]
    exact this

/-- In a tree whose leafs are the entries at their indices and whose directory
nodes have no index, the names on the way to the carrier of an index are the
components of the entry at that index. -/
theorem components_of_carries (data : List FileData) {t : Node} {names : List QString}
    {index : Int} (h : t.Carries names index) :
    ∀ pre, Node.All (IndexedBy data) pre t →
      ∃ (i : Nat) (fd : FileData), index = (i : Int) ∧ data[i]? = some fd ∧
        components fd = pre ++ names := by
  induction h with
  | @leaf t l hl =>
    intro pre ht
    obtain ⟨fd, h1, h2⟩ := ht.here.1 l hl
    exact ⟨l.index, fd, rfl, h1, h2⟩
  | @dir t c hc hidx =>
    intro pre ht
    exact absurd (ht.here.2 c hc) hidx
  | @inside t c names index hc _ ih =>
    intro pre ht
    cases ht with
    | mk _ hch =>
      obtain ⟨i, fd, h1, h2, h3⟩ := ih _ (hch c hc)
      refine ⟨i, fd, h1, h2, ?_⟩
      rw [h3]
      simp [Node.name]

/-- A leaf that is reached along a path is carried under the names of the
path. -/
theorem carries_of_reachesLeaf (i : Nat) :
    ∀ (cs : List QString) (t : Node), t.reachesLeaf cs i = true → t.Carries cs (i : Int) := by
  intro cs
  induction cs with
  | nil => intro t h; simp [Node.reachesLeaf] at h
  | cons c rest ih =>
    intro t h
    cases t with
    | mk d nodes leafs =>
      cases rest with
      | nil =>
        rw [reachesLeaf_single] at h
        exact Node.Carries.leaf (t := Node.mk d nodes leafs) (l := ⟨c, i⟩) (of_decide_eq_true h)
      | cons c2 rest2 =>
        obtain ⟨m, hm, hreach⟩ := reachesLeaf_step_inv _ _ _ _ _ _ _ h
        have hmem : m ∈ nodes := List.mem_of_find?_eq_some hm
        have hdec := List.find?_some hm
        have hname : m.name = c := of_decide_eq_true hdec
        have := Node.Carries.inside (t := Node.mk d nodes leafs) hmem (ih m hreach)
        rw [← hname]
        exact this

/-- C19: for every list of file entries whose paths consist of non-empty
segments, with no two entries sharing a path and no entry's segments being a
segment-wise proper prefix of another's, `mapToArchive` applied to the tree
built by `createFilesTree` flags every entry skip=false and gives every
entry its full path as output name. -/
theorem mapToArchive_createFilesTree (data : List FileData)
    (hfiles : ∀ fd ∈ data, fd.isDirectory = false)
    (hne : ∀ fd ∈ data, ∀ c ∈ components fd, c ≠ [])
    (hnodup : (data.map FileData.fileName).Nodup)
    (hpre : ∀ a ∈ data, ∀ b ∈ data, ¬ properPrefix (components a) (components b))
    (i : Nat) (fd : FileData) (hi : data[i]? = some fd) :
    ∃ fd2, (mapToArchive (createFilesTree data) data)[i]? = some fd2 ∧
      fd2.skip = false ∧ fd2.outputFileName = fd.fileName := by
  have hmem : fd ∈ data := List.mem_iff_getElem?.mpr ⟨i, hi⟩
  obtain ⟨hdata, hlen⟩ := data_eq_take_cons_drop hi
  -- the leaf of the entry is reached
  have hpre2 : ∀ fj ∈ data.take i, ¬ components fd <+: processed (components fj) := by
    intro fj hfj
    refine not_processed_of_not_properPrefix ?_ (hpre fd hmem fj (List.mem_of_mem_take hfj))
    have hnd := hnodup
    rw [hdata, List.map_append, List.map_cons] at hnd
    have hnot := (List.nodup_cons.mp (List.nodup_middle.mp hnd)).1
    intro heq
    exact hnot (List.mem_append_left _ (heq ▸ List.mem_map_of_mem _ hfj))
  have hbuilt := buildFrom_dirsFrom (data.take i) 0 [] emptyTree emptyTree_dirsFrom
  rw [List.nil_append] at hbuilt
  have hnew := reachesLeaf_addPath_new (data.take i) i (components fd) hpre2 (components fd) []
    (buildFrom 0 (data.take i) emptyTree) (split_ne_nil _ _) (hne fd hmem) rfl hbuilt
  have hreach : (createFilesTree data).reachesLeaf (components fd) i = true := by
    unfold createFilesTree
    rw [hdata, buildFrom_append, hlen, buildFrom, hfiles fd hmem, Nat.zero_add]
    exact buildFrom_reachesLeaf_mono i _ (data.drop (i + 1)) (i + 1) _ hnew
  have hcar := carries_of_reachesLeaf i _ _ hreach
  -- every carrier of the index lies on the path of the entry
  have hroot : Node.All (IndexedBy data) [] emptyTree :=
    Node.All.mk ⟨fun l hl => by simp [Node.leafs] at hl, fun x hx => by simp [Node.nodes] at hx⟩
      (fun y hy => by simp at hy)
  have hall : Node.All (IndexedBy data) [] (createFilesTree data) :=
    buildFrom_indexedBy data data 0 emptyTree (fun j x hx => by simpa using hx) hfiles hroot
  obtain ⟨fd2, h1, _, h3, h4⟩ := mapToArchive_entry (createFilesTree data) data i fd hi
  have hskip : fd2.skip = false := h3.mpr ⟨_, hcar⟩
  refine ⟨fd2, h1, hskip, ?_⟩
  obtain ⟨names, hc, hout⟩ := h4 hskip
  obtain ⟨j, fj, hj, hfj, hcomp⟩ := components_of_carries data hc [] hall
  have hij : j = i := by omega
  rw [hij, hi] at hfj
  cases hfj
  rw [List.nil_append] at hcomp
  rw [hout, ← hcomp]
  have hdrop : (components fd).dropWhile (fun n => decide (n = [])) = components fd := by
    cases hcs : components fd with
    | nil => rfl
    | cons c cs =>
      have : c ≠ [] := hne fd hmem c (by rw [hcs]; exact List.mem_cons_self _ _)
      simp [List.dropWhile_cons, this]
  rw [hdrop]
  exact joinPath_split fd.fileName

/-- Two files in a directory and one at the top level: the second entry gets its
path back. -/
theorem mapToArchive_createFilesTree_witness :
    ∃ fd2, (mapToArchive
        (createFilesTree [fileEntry "data\\a.esp", fileEntry "data\\tex\\b.dds",
          fileEntry "readme.txt"])
        [fileEntry "data\\a.esp", fileEntry "data\\tex\\b.dds", fileEntry "readme.txt"])[1]? =
        some fd2 ∧
      fd2.skip = false ∧ fd2.outputFileName = "data\\tex\\b.dds".toList :=
  mapToArchive_createFilesTree
    [fileEntry "data\\a.esp", fileEntry "data\\tex\\b.dds", fileEntry "readme.txt"]
    (by decide) (by decide) (by decide) (by decide) 1 (fileEntry "data\\tex\\b.dds") rfl
